import Mathlib

/-!
Verification of the cache-and-batch distance-matrix layer of
`src/google_maps_funcs.py` and `src/compute_distances.py`, as a shallow
embedding in Lean 4.

Modelling conventions:
* Python strings are `List Char` (`Str`).
* JSON values (the on-the-wire service response, the persisted cache entry,
  and dictionary field values) are the inductive `J`.
* Python dictionaries are association lists with Python's semantics:
  updating an existing key keeps its position, a new key is appended.
* The external `googlemaps` client is an opaque deterministic oracle
  `Svc : origins → destinations → mode → J`.
* The file-backed cache in `.cache/` is an association list from cache key
  to the stored (raw, untransformed) JSON value, exactly as `json.dump`
  persists it in `get_distance_matrix`.
* `hashlib.sha256(key_data).hexdigest()` is modelled by the serialized
  `key_data` bytes themselves: SHA-256 of equal byte strings is equal, and
  the spec states distinctness of keys only up to collision resistance, so
  every property claimed of the key is settled on the serialized bytes.
* Exceptions (`ValueError`, `KeyError`/`IndexError`/`TypeError`) are the
  `Except PyErr` monad; the stateful functions additionally return the
  cache that results from the call and the number of external service
  calls performed.
-/

abbrev Str := List Char

/-- JSON values, as produced by `json.load`/consumed by `json.dump`. -/
inductive J where
  | s : Str → J
  | arr : List J → J
  | obj : List (Str × J) → J

/-- Python `dict` lookup `d[k]` / `d.get(k)`: first binding for `k`. -/
def alGet? (k : Str) : List (Str × α) → Option α
  | [] => none
  | (k', v) :: rest => if k' = k then some v else alGet? k rest

/-- Python `d.get(k, dflt)`. -/
def alGetD (k : Str) (l : List (Str × α)) (dflt : α) : α :=
  (alGet? k l).getD dflt

/-- Python `d[k] = v`: replace in place if `k` is present, else append. -/
def alSet (k : Str) (v : α) : List (Str × α) → List (Str × α)
  | [] => [(k, v)]
  | (k', v') :: rest => if k' = k then (k, v) :: rest else (k', v') :: alSet k v rest

/-- Python `list(d.keys())`. -/
def alKeys (l : List (Str × α)) : List Str := l.map (·.1)

/-- Subscripting a JSON object: `j[k]` (absence/non-dict is a Python error). -/
def jGet? (k : Str) : J → Option J
  | .obj fs => alGet? k fs
  | _ => none

/-- Subscripting a JSON array: `j[i]`. -/
def jIdx? (i : Nat) : J → Option J
  | .arr xs => xs.get? i
  | _ => none

/-- Python exceptions relevant to this code. `valueError` is
`ValueError("GOOGLE_MAPS_API_KEY not found in .env")`; `lookupError`
collapses `KeyError`/`IndexError`/`TypeError` from subscripting. -/
inductive PyErr where
  | valueError : Str → PyErr
  | lookupError : PyErr
deriving DecidableEq

def apiKeyMissingMsg : Str := "GOOGLE_MAPS_API_KEY not found in .env".toList

/-! ## The cache key (`_matrix_cache_key`)

`json.dumps({"origins": o, "destinations": d, "mode": m}, sort_keys=True)`
serialized with the default separators `(", ", ": ")` and
`ensure_ascii=True`. -/

/-- Lowercase hex digit. -/
def hexDigit (n : Nat) : Char :=
  "0123456789abcdef".toList.getD n '0'

/-- Four lowercase hex digits, as in `\uXXXX` escapes. -/
def hex4 (n : Nat) : Str :=
  [hexDigit (n / 4096 % 16), hexDigit (n / 256 % 16), hexDigit (n / 16 % 16), hexDigit (n % 16)]

/-- The escaping `json.dumps` (with `ensure_ascii=True`) applies to one
character of a string. -/
def jsonEscapeChar (c : Char) : Str :=
  if c = '"' then ['\\', '"']
  else if c = '\\' then ['\\', '\\']
  else if c = '\x08' then ['\\', 'b']
  else if c = '\t' then ['\\', 't']
  else if c = '\n' then ['\\', 'n']
  else if c = '\x0c' then ['\\', 'f']
  else if c = '\r' then ['\\', 'r']
  else if c.toNat < 0x20 then '\\' :: 'u' :: hex4 c.toNat
  else if c.toNat < 0x7f then [c]
  else if c.toNat < 0x10000 then '\\' :: 'u' :: hex4 c.toNat
  else
    let v := c.toNat - 0x10000
    ('\\' :: 'u' :: hex4 (0xd800 + v / 0x400)) ++ ('\\' :: 'u' :: hex4 (0xdc00 + v % 0x400))

/-- `json.dumps` of one string. -/
def jsonStr (s : Str) : Str :=
  '"' :: (s.flatMap jsonEscapeChar) ++ ['"']

/-- A top-level field value of the cache-key record: a string (the mode) or
a list of strings (origins/destinations). -/
inductive KeyField where
  | str : Str → KeyField
  | strList : List Str → KeyField
deriving DecidableEq

/-- `json.dumps` of the members of a string list, with the default `", "`
separator, including the closing bracket. -/
def encodeItems : List Str → Str
  | [] => [']']
  | [s] => jsonStr s ++ [']']
  | s :: t :: more => jsonStr s ++ ',' :: ' ' :: encodeItems (t :: more)

def encodeKeyField : KeyField → Str
  | .str s => jsonStr s
  | .strList l => '[' :: encodeItems l

/-- `json.dumps` of the members of an object, with the default `", "` and
`": "` separators, including the closing brace. -/
def encodeEntries : List (Str × KeyField) → Str
  | [] => ['}']
  | [p] => jsonStr p.1 ++ ':' :: ' ' :: encodeKeyField p.2 ++ ['}']
  | p :: q :: more =>
      jsonStr p.1 ++ ':' :: ' ' :: encodeKeyField p.2 ++ ',' :: ' ' :: encodeEntries (q :: more)

/-- Lexicographic (code-point) `<=` on strings, Python's string order. -/
def strLeB : Str → Str → Bool
  | [], _ => true
  | _ :: _, [] => false
  | a :: as, b :: bs => if a < b then true else if a = b then strLeB as bs else false

/-- Stable insertion of one entry into a key-sorted entry list. -/
def sortedInsertEntry (p : Str × KeyField) : List (Str × KeyField) → List (Str × KeyField)
  | [] => [p]
  | q :: rest => if strLeB p.1 q.1 then p :: q :: rest else q :: sortedInsertEntry p rest

/-- Sorting of the object's entries by key, as `sort_keys=True` does. -/
def sortEntries (l : List (Str × KeyField)) : List (Str × KeyField) :=
  l.foldr sortedInsertEntry []

/-- `json.dumps(record, sort_keys=True)` for a flat record of
string/string-list fields. -/
def dumpsSorted (fields : List (Str × KeyField)) : Str :=
  '{' :: encodeEntries (sortEntries fields)

/-- The serialized `key_data` of `_matrix_cache_key`:
`json.dumps({"origins": origins, "destinations": destinations, "mode": mode}, sort_keys=True)`. -/
def key_data (origins destinations : List Str) (mode : Str) : Str :=
  dumpsSorted
    [("origins".toList, .strList origins),
     ("destinations".toList, .strList destinations),
     ("mode".toList, .str mode)]

/-- `_matrix_cache_key`. The code returns
`hashlib.sha256(key_data.encode("utf-8")).hexdigest()`; we model the key by
the serialized bytes themselves (see the header comment): equality of keys
for equal bytes is exact, and distinctness of keys for distinct bytes is
the spec's own "collision resistance" reading. -/
def _matrix_cache_key (origins destinations : List Str) (mode : Str) : Str :=
  key_data origins destinations mode

/-! ## The batch planner (lines 83–95 of `google_maps_funcs.py`) -/

/-- Python `range(0, len, batch_size)`: the chunk start offsets `k`. -/
def kRange (len batch_size : Nat) : List Nat :=
  (List.range ((len + batch_size - 1) / batch_size)).map (· * batch_size)

/-- The descriptors `(i, batch_dest_indices)` emitted by the planning loop
of `get_distance_matrix_batched`:
for each origin `i`, `dest_indices = [j for j in range(i + 1, m)]` and
`batch_dest_indices = dest_indices[k : k + batch_size]` for each chunk
offset `k`. -/
def plannedBatches (n m batch_size : Nat) : List (Nat × List Nat) :=
  (List.range n).flatMap fun i =>
    let dest_indices := List.range' (i + 1) (m - (i + 1))
    (kRange dest_indices.length batch_size).map fun k =>
      (i, (dest_indices.drop k).take batch_size)

/-- All `(originIndex, destinationIndex)` pairs covered by the planner's
descriptors, combined. -/
def coveredPairs (n m batch_size : Nat) : List (Nat × Nat) :=
  (plannedBatches n m batch_size).flatMap fun d => d.2.map (d.1, ·)

/-! ## The response transformation (lines 51–64 of `google_maps_funcs.py`)

The loop body reads `matrix_response["rows"][i]["elements"][j]` afresh for
every `(i, j)`, then maps status `OK` to `{distance, duration}` (the
`["text"]` fields) and any other status to `{error: status}`. -/

/-- A matrix element as returned to the caller: a Python dict. -/
abbrev Elem := List (Str × J)

/-- One origin's inner mapping `destination → element`. -/
abbrev InnerMap := List (Str × Elem)

/-- The returned `DistanceMatrix`: `origin → destination → element`. -/
abbrev DistMatrix := List (Str × InnerMap)

/-- `matrix_response["rows"][i]["elements"][j]`. -/
def elemAt (resp : J) (i j : Nat) : Option J :=
  ((jGet? "rows".toList resp).bind (jIdx? i)).bind fun row =>
    (jGet? "elements".toList row).bind (jIdx? j)

/-- Python `element["status"] == "OK"` (False, not an error, for
a non-string status). -/
def isOkStatus : J → Bool
  | .s v => v = "OK".toList
  | _ => false

/-- The per-element branch of the loop body. -/
def transformElement (e : J) : Except PyErr Elem :=
  match jGet? "status".toList e with
  | none => .error .lookupError
  | some st =>
    if isOkStatus st then
      match (jGet? "distance".toList e).bind (jGet? "text".toList),
            (jGet? "duration".toList e).bind (jGet? "text".toList) with
      | some dv, some tv => .ok [("distance".toList, dv), ("duration".toList, tv)]
      | _, _ => .error .lookupError
    else .ok [("error".toList, st)]

/-- The whole body for pair `(i, j)`: fetch the element, then transform. -/
def elemTrans (resp : J) (i j : Nat) : Except PyErr Elem :=
  match elemAt resp i j with
  | none => .error .lookupError
  | some e => transformElement e

/-- The inner `for j, destination in enumerate(destinations)` loop,
starting at index `j` with the partial inner dict `acc`. -/
def transformElems (resp : J) (i : Nat) : Nat → List Str → InnerMap → Except PyErr InnerMap
  | _, [], acc => .ok acc
  | j, dst :: rest, acc =>
      match elemTrans resp i j with
      | .error e => .error e
      | .ok fields => transformElems resp i (j + 1) rest (alSet dst fields acc)

/-- The outer `for i, origin in enumerate(origins)` loop. -/
def transformRows (resp : J) (destinations : List Str) :
    Nat → List Str → DistMatrix → Except PyErr DistMatrix
  | _, [], acc => .ok acc
  | i, origin :: rest, acc =>
      match transformElems resp i 0 destinations [] with
      | .error e => .error e
      | .ok inner => transformRows resp destinations (i + 1) rest (alSet origin inner acc)

/-- Lines 51–64: build `result` from the (loaded or fresh) raw response. -/
def transformResponse (origins destinations : List Str) (resp : J) : Except PyErr DistMatrix :=
  transformRows resp destinations 0 origins []

/-- Decidable check that every element access and transformation in range
succeeds (the shape the code silently assumes of a response). -/
def elemsOk (origins destinations : List Str) (resp : J) : Bool :=
  (List.range origins.length).all fun i =>
    (List.range destinations.length).all fun j =>
      match elemTrans resp i j with
      | .ok _ => true
      | .error _ => false

/-! ## The orchestrator (`get_distance_matrix`, lines 24–64) -/

/-- The deterministic external service oracle
(`googlemaps.Client(...).distance_matrix`), returning the raw JSON
response for a `(origins, destinations, mode)` request. -/
abbrev Svc := List Str → List Str → Str → J

/-- Process environment: `os.getenv("GOOGLE_MAPS_API_KEY")` after
`load_dotenv()`. -/
structure Env where
  apiKey : Option Str

/-- Python `if not api_key:` — absent and empty string are both falsy. -/
def apiKeyPresent (env : Env) : Bool :=
  match env.apiKey with
  | none => false
  | some k => !k.isEmpty

/-- The `.cache/` directory: cache key → stored raw JSON value. -/
abbrev Cache := List (Str × J)

/-- `get_distance_matrix`: the unbatched, cached path. Returns the result
(or the raised exception), the cache left on disk, and the number of
external service calls made. On a miss the raw response is written to the
cache *before* the transformation runs (lines 49–50 precede 51–64). -/
def get_distance_matrix (svc : Svc) (env : Env) (cache : Cache)
    (origins destinations : List Str) (mode : Str) :
    Except PyErr DistMatrix × Cache × Nat :=
  let key := _matrix_cache_key origins destinations mode
  match alGet? key cache with
  | some stored => (transformResponse origins destinations stored, cache, 0)
  | none =>
      if apiKeyPresent env then
        let resp := svc origins destinations mode
        (transformResponse origins destinations resp, alSet key resp cache, 1)
      else (.error (.valueError apiKeyMissingMsg), cache, 0)

/-- One iteration of the batched loop body (lines 92–100): slice the
destination list by the descriptor's indices, issue the single-origin
sub-request through `get_distance_matrix`, and fold the sub-result into
the running `result` keyed by `list(batch_result.keys())[0]`. An already
raised exception propagates unchanged. -/
def batchedStep (svc : Svc) (env : Env) (origins destinations : List Str) (mode : Str)
    (acc : Except PyErr DistMatrix × Cache × Nat) (d : Nat × List Nat) :
    Except PyErr DistMatrix × Cache × Nat :=
  match acc with
  | (.error e, cache, calls) => (.error e, cache, calls)
  | (.ok result, cache, calls) =>
      let batch_destinations := d.2.map fun j => destinations.getD j []
      let batch_origins := [origins.getD d.1 []]
      match get_distance_matrix svc env cache batch_origins batch_destinations mode with
      | (.error e, cache', calls') => (.error e, cache', calls + calls')
      | (.ok batch_result, cache', calls') =>
          match (alKeys batch_result).head? with
          | none => (.error .lookupError, cache', calls + calls')
          | some origin_addr =>
              let inner0 := alGetD origin_addr result []
              let inner :=
                (alGetD origin_addr batch_result []).foldl (fun a p => alSet p.1 p.2 a) inner0
              (.ok (alSet origin_addr inner result), cache', calls + calls')

/-- `get_distance_matrix_batched` (lines 67–101): drive the planner's
descriptors through `batchedStep`, starting from an empty `result`. -/
def get_distance_matrix_batched (svc : Svc) (env : Env) (cache : Cache)
    (origins destinations : List Str) (mode : Str) (batch_size : Nat) :
    Except PyErr DistMatrix × Cache × Nat :=
  (plannedBatches origins.length destinations.length batch_size).foldl
    (batchedStep svc env origins destinations mode) (.ok [], cache, 0)

/-- The persisted shape a `DistanceMatrix` would have if it were written
to the cache (used to compare the stored entry with the returned matrix). -/
def matrixToJ (m : DistMatrix) : J :=
  .obj (m.map fun p => (p.1, .obj (p.2.map fun q => (q.1, .obj q.2))))

/-! ## `compute_distances.get_distance_matrix` (uncached variant)

Identical element loop, but keyed by the service's *resolved*
`origin_addresses`/`destination_addresses` instead of the input strings. -/

/-- Read a JSON array of strings (`matrix['origin_addresses']` is iterated
and its members used as dict keys; our `DistMatrix` keys are strings). -/
def strList? : Option J → Except PyErr (List Str)
  | some (.arr xs) =>
      xs.foldr (fun x acc =>
        match x, acc with
        | .s v, .ok l => .ok (v :: l)
        | _, _ => .error .lookupError) (.ok [])
  | _ => .error .lookupError

/-- `compute_distances.get_distance_matrix`: no cache, keys taken from the
response's resolved address lists. -/
def cd_get_distance_matrix (svc : Svc) (env : Env)
    (origins destinations : List Str) (mode : Str) : Except PyErr DistMatrix :=
  if apiKeyPresent env then
    let resp := svc origins destinations mode
    match strList? (jGet? "origin_addresses".toList resp),
          strList? (jGet? "destination_addresses".toList resp) with
    | .ok origin_addresses, .ok destination_addresses =>
        transformRows resp destination_addresses 0 origin_addresses []
    | .error e, _ => .error e
    | _, .error e => .error e
  else .error (.valueError apiKeyMissingMsg)

/-! ## `unpack_distance_matrix_dict` (lines 104–140) -/

/-- Stable insertion sort by Python's string order (for
`sorted(destinations)`). -/
def sortedInsertStr (s : Str) : List Str → List Str
  | [] => [s]
  | t :: rest => if strLeB s t then s :: t :: rest else t :: sortedInsertStr s rest

def sortStrs (l : List Str) : List Str := l.foldr sortedInsertStr []

/-- `sorted(set(...))`: duplicates removed, then sorted. -/
def sortedDedup (l : List Str) : List Str := sortStrs l.dedup

/-- A pandas DataFrame as far as this code observes it: row index, column
labels, and the cell grid (None-able values). -/
structure Frame where
  index : List Str
  columns : List Str
  data : List (List (Option J))

/-- `unpack_distance_matrix_dict`: rows are the dict's origins in
insertion order, columns the sorted union of all inner keys; a cell is the
entry's `'distance'` (resp. `'duration'`) field, `None` when the entry —
`matrix_dict[origin].get(destination, {})` — lacks it. -/
def unpack_distance_matrix_dict (matrix_dict : DistMatrix) : Frame × Frame :=
  let origins := alKeys matrix_dict
  let destinations := sortedDedup (matrix_dict.flatMap fun p => alKeys p.2)
  let distance_data := origins.map fun origin =>
    destinations.map fun destination =>
      alGet? "distance".toList (alGetD destination (alGetD origin matrix_dict []) [])
  let time_data := origins.map fun origin =>
    destinations.map fun destination =>
      alGet? "duration".toList (alGetD destination (alGetD origin matrix_dict []) [])
  (⟨origins, destinations, distance_data⟩, ⟨origins, destinations, time_data⟩)

/-! ## Derived definitions and concrete test fixtures -/

/-- The eligible destination indices of origin `i`:
`[j for j in range(i + 1, m)]`. -/
def destIndices (i m : Nat) : List Nat := List.range' (i + 1) (m - (i + 1))

/-- A character the JSON encoder passes through unescaped: printable ASCII
other than the quote and the backslash. -/
def PlainChar (c : Char) : Prop :=
  c ≠ '"' ∧ c ≠ '\\' ∧ 0x20 ≤ c.toNat ∧ c.toNat ≤ 0x7e

instance : DecidablePred PlainChar := fun c => by
  unfold PlainChar
  infer_instance

def PlainStr (s : Str) : Prop := ∀ c ∈ s, PlainChar c

instance : DecidablePred PlainStr := fun s => by
  unfold PlainStr
  infer_instance

def PlainList (l : List Str) : Prop := ∀ s ∈ l, PlainStr s

instance : DecidablePred PlainList := fun l => by
  unfold PlainList
  infer_instance

/-- The cache key of the sub-request a descriptor gives rise to. -/
def descKey (origins destinations : List Str) (mode : Str) (d : Nat × List Nat) : Str :=
  _matrix_cache_key [origins.getD d.1 []] (d.2.map fun j => destinations.getD j []) mode

/-- A concrete all-OK service oracle, for concrete runs. -/
def svcOkConst : Svc := fun o dst _ =>
  .obj [("origin_addresses".toList, .arr (o.map J.s)),
        ("destination_addresses".toList, .arr (dst.map J.s)),
        ("rows".toList, .arr (o.map fun _ => .obj
          [("elements".toList, .arr (dst.map fun _ => .obj
            [("status".toList, .s "OK".toList),
             ("distance".toList, .obj [("text".toList, .s "1 km".toList)]),
             ("duration".toList, .obj [("text".toList, .s "1 min".toList)])]))]))]

/-- A concrete environment holding an API key. -/
def envTest : Env := ⟨some "k".toList⟩

/-- A success element as the oracle `svcZeroAB` reports it. -/
def elemOkJ : J :=
  .obj [("status".toList, .s "OK".toList),
        ("distance".toList, .obj [("text".toList, .s "2 km".toList)]),
        ("duration".toList, .obj [("text".toList, .s "2 min".toList)])]

/-- A `ZERO_RESULTS` element. -/
def elemZeroJ : J := .obj [("status".toList, .s "ZERO_RESULTS".toList)]

/-- An oracle whose 2x2 response has `ZERO_RESULTS` at pair (0, 1) and `OK`
everywhere else. -/
def svcZeroAB : Svc := fun _ _ _ =>
  .obj [("rows".toList, .arr
    [.obj [("elements".toList, .arr [elemOkJ, elemZeroJ])],
     .obj [("elements".toList, .arr [elemOkJ, elemOkJ])]])]

/-- An example matrix with an error element and a triangular gap, for
concrete evaluation. -/
def exampleMatrix : DistMatrix :=
  [("A".toList, [("B".toList, [("distance".toList, J.s "1 km".toList),
      ("duration".toList, J.s "1 min".toList)]),
    ("C".toList, [("error".toList, J.s "ZERO_RESULTS".toList)])]),
   ("B".toList, [("C".toList, [("distance".toList, J.s "2 km".toList),
      ("duration".toList, J.s "2 min".toList)])])]

/-! ## Association-list lemmas -/

theorem alKeys_nil : alKeys ([] : List (Str × α)) = [] := rfl

theorem alKeys_cons (p : Str × α) (l : List (Str × α)) :
    alKeys (p :: l) = p.1 :: alKeys l := rfl

theorem mem_alKeys_cons {k : Str} {p : Str × α} {l : List (Str × α)} :
    k ∈ alKeys (p :: l) ↔ k = p.1 ∨ k ∈ alKeys l := by
  rw [alKeys_cons]
  exact List.mem_cons

theorem alGet?_alSet_self (k : Str) (v : α) (l : List (Str × α)) :
    alGet? k (alSet k v l) = some v := by
  induction l with
  | nil => simp [alGet?, alSet]
  | cons p rest ih =>
      rcases p with ⟨pk, pv⟩
      by_cases h : pk = k
      · simp [alSet, alGet?, h]
      · simp [alSet, alGet?, h, ih]

theorem alGet?_alSet_ne (k k' : Str) (v : α) (l : List (Str × α)) (h : k' ≠ k) :
    alGet? k' (alSet k v l) = alGet? k' l := by
  have hkk : ¬(k = k') := fun he => h he.symm
  induction l with
  | nil => simp [alGet?, alSet, hkk]
  | cons p rest ih =>
      rcases p with ⟨pk, pv⟩
      by_cases hp : pk = k
      · subst hp
        simp [alSet, alGet?, hkk]
      · simp only [alSet, hp, if_false]
        by_cases hp' : pk = k'
        · simp [alGet?, hp']
        · simp [alGet?, hp', ih]

theorem alKeys_alSet_mem (k : Str) (v : α) (l : List (Str × α)) (h : k ∈ alKeys l) :
    alKeys (alSet k v l) = alKeys l := by
  induction l with
  | nil => exact absurd h (by rw [alKeys_nil]; exact List.not_mem_nil k)
  | cons p rest ih =>
      rcases p with ⟨pk, pv⟩
      by_cases hp : pk = k
      · simp [alSet, alKeys_cons, hp]
      · have hrest : k ∈ alKeys rest := by
          rcases mem_alKeys_cons.1 h with h' | h'
          · exact absurd h'.symm hp
          · exact h'
        simp only [alSet, hp, if_false, alKeys_cons]
        rw [ih hrest]

theorem alKeys_alSet_not_mem (k : Str) (v : α) (l : List (Str × α)) (h : k ∉ alKeys l) :
    alKeys (alSet k v l) = alKeys l ++ [k] := by
  induction l with
  | nil => simp [alSet, alKeys]
  | cons p rest ih =>
      rcases p with ⟨pk, pv⟩
      have hp : ¬(pk = k) := fun he => h (mem_alKeys_cons.2 (.inl he.symm))
      have hrest : k ∉ alKeys rest := fun hm => h (mem_alKeys_cons.2 (.inr hm))
      simp only [alSet, hp, if_false, alKeys_cons]
      rw [ih hrest]
      rfl

theorem alGet?_eq_none_of_not_mem (k : Str) (l : List (Str × α)) (h : k ∉ alKeys l) :
    alGet? k l = none := by
  induction l with
  | nil => rfl
  | cons p rest ih =>
      rcases p with ⟨pk, pv⟩
      have hp : ¬(pk = k) := fun he => h (mem_alKeys_cons.2 (.inl he.symm))
      have hrest : k ∉ alKeys rest := fun hm => h (mem_alKeys_cons.2 (.inr hm))
      simp [alGet?, hp, ih hrest]

theorem alGet?_isSome_of_mem (k : Str) (l : List (Str × α)) (h : k ∈ alKeys l) :
    (alGet? k l).isSome := by
  induction l with
  | nil => exact absurd h (by rw [alKeys_nil]; exact List.not_mem_nil k)
  | cons p rest ih =>
      rcases p with ⟨pk, pv⟩
      by_cases hp : pk = k
      · simp [alGet?, hp]
      · have hrest : k ∈ alKeys rest := by
          rcases mem_alKeys_cons.1 h with h' | h'
          · exact absurd h'.symm hp
          · exact h'
        simp [alGet?, hp, ih hrest]

/-- Folding `d[k] = v` over fresh, mutually distinct keys appends them in
order. -/
theorem alKeys_foldl_alSet (entries : List (Str × α)) (acc : List (Str × α))
    (hfresh : ∀ k ∈ alKeys entries, k ∉ alKeys acc) (hnd : (alKeys entries).Nodup) :
    alKeys (entries.foldl (fun a p => alSet p.1 p.2 a) acc) = alKeys acc ++ alKeys entries := by
  induction entries generalizing acc with
  | nil => simp [alKeys_nil]
  | cons p rest ih =>
      rcases p with ⟨pk, pv⟩
      have hp : pk ∉ alKeys acc := hfresh pk (mem_alKeys_cons.2 (.inl rfl))
      have hnd0 : pk ∉ alKeys rest ∧ (alKeys rest).Nodup := by
        rw [alKeys_cons] at hnd
        exact List.nodup_cons.1 hnd
      have hfresh' : ∀ k ∈ alKeys rest, k ∉ alKeys (alSet pk pv acc) := by
        intro k hk
        rw [alKeys_alSet_not_mem _ _ _ hp]
        intro hmem
        rcases List.mem_append.1 hmem with hmem | hmem
        · exact hfresh k (mem_alKeys_cons.2 (.inr hk)) hmem
        · simp at hmem
          subst hmem
          exact hnd0.1 hk
      simp only [List.foldl_cons]
      rw [ih (alSet pk pv acc) hfresh' hnd0.2, alKeys_alSet_not_mem _ _ _ hp, alKeys_cons]
      simp

/-- Folding `d[k] = v` over entries leaves absent keys' lookups unchanged. -/
theorem alGet?_foldl_alSet_not_mem (entries : List (Str × α)) (acc : List (Str × α))
    (k : Str) (h : k ∉ alKeys entries) :
    alGet? k (entries.foldl (fun a p => alSet p.1 p.2 a) acc) = alGet? k acc := by
  induction entries generalizing acc with
  | nil => rfl
  | cons p rest ih =>
      rcases p with ⟨pk, pv⟩
      have hp : ¬(pk = k) := fun he => h (mem_alKeys_cons.2 (.inl he.symm))
      have hrest : k ∉ alKeys rest := fun hm => h (mem_alKeys_cons.2 (.inr hm))
      simp only [List.foldl_cons]
      rw [ih _ hrest, alGet?_alSet_ne _ _ _ _ (fun he => hp he.symm)]

/-- Folding `d[k] = v` over entries with mutually distinct keys makes each
entry's lookup return its value. -/
theorem alGet?_foldl_alSet_mem (entries : List (Str × α)) (acc : List (Str × α))
    (k : Str) (v : α) (hnd : (alKeys entries).Nodup) (hkv : (k, v) ∈ entries) :
    alGet? k (entries.foldl (fun a p => alSet p.1 p.2 a) acc) = some v := by
  induction entries generalizing acc with
  | nil => simp at hkv
  | cons p rest ih =>
      rcases p with ⟨pk, pv⟩
      have hnd0 : pk ∉ alKeys rest ∧ (alKeys rest).Nodup := by
        rw [alKeys_cons] at hnd
        exact List.nodup_cons.1 hnd
      rcases List.mem_cons.1 hkv with he | hm
      · have hek : k = pk := congrArg Prod.fst he
        have hev : v = pv := congrArg Prod.snd he
        subst hek
        subst hev
        simp only [List.foldl_cons]
        rw [alGet?_foldl_alSet_not_mem _ _ _ hnd0.1, alGet?_alSet_self]
      · simp only [List.foldl_cons]
        exact ih _ hnd0.2 hm

/-! ## Planner lemmas -/

theorem kRange_zero (b : Nat) (hb : 1 ≤ b) : kRange 0 b = [] := by
  have h0 : (0 + b - 1) / b = 0 := Nat.div_eq_of_lt (by omega)
  rw [kRange, h0]
  rfl

/-- Peeling the first chunk offset: for a nonempty list, `range(0, len, b)`
is `0` followed by the offsets for the remainder after the first chunk,
shifted by `b`. -/
theorem kRange_succ (b : Nat) (hb : 1 ≤ b) (L : Nat) (hL : 1 ≤ L) :
    kRange L b = 0 :: ((kRange (L - b) b).map (· + b)) := by
  have hq : (L + b - 1) / b = (L - b + b - 1) / b + 1 := by
    have h1 : L + b - 1 = (L - 1) + b := by omega
    rw [h1, Nat.add_div_right _ (by omega : 0 < b)]
    rcases Nat.le_total b L with h | h
    · have h2 : L - b + b - 1 = L - 1 := by omega
      rw [h2]
    · have h2 : L - b + b - 1 = b - 1 := by omega
      rw [h2, Nat.div_eq_of_lt (show L - 1 < b by omega),
        Nat.div_eq_of_lt (show b - 1 < b by omega)]
  rw [kRange, hq, List.range_succ_eq_map]
  simp only [List.map_cons, Nat.zero_mul, List.map_map, kRange]
  congr 1
  apply List.map_congr_left
  intro t _
  simp [Nat.succ_mul]

/-- Concatenating the chunks `l[k : k + b]` over all offsets of
`range(0, len(l), b)` reproduces `l`. -/
theorem kRange_chunks_concat (b : Nat) (hb : 1 ≤ b) :
    ∀ (fuel : Nat) (l : List α), l.length ≤ fuel →
      (kRange l.length b).flatMap (fun k => (l.drop k).take b) = l := by
  intro fuel
  induction fuel with
  | zero =>
      intro l hl
      have : l = [] := List.eq_nil_of_length_eq_zero (Nat.le_zero.1 hl)
      subst this
      rw [List.length_nil, kRange_zero b hb]
      rfl
  | succ fuel ih =>
      intro l hl
      cases l with
      | nil =>
          rw [List.length_nil, kRange_zero b hb]
          rfl
      | cons a as =>
          set l := a :: as with hldef
          have hL : 1 ≤ l.length := by simp [hldef]
          rw [kRange_succ b hb l.length hL]
          rw [List.flatMap_cons, List.flatMap_map]
          have hdrop : ∀ k : Nat, l.drop (k + b) = (l.drop b).drop k := by
            intro k
            rw [List.drop_drop]
            congr 1
            omega
          have hrest :
              (kRange (l.length - b) b).flatMap (fun k => (l.drop (k + b)).take b) =
                (kRange (l.drop b).length b).flatMap (fun k => ((l.drop b).drop k).take b) := by
            rw [List.length_drop]
            apply List.flatMap_congr
            intro k _
            rw [hdrop k]
          rw [hrest, ih (l.drop b) (by rw [List.length_drop]; omega)]
          simp

theorem mem_destIndices {j i m : Nat} : j ∈ destIndices i m ↔ i < j ∧ j < m := by
  rw [destIndices, List.mem_range'_1]
  omega

/-- One origin's chunks, concatenated in emitted order, are exactly its
eligible destination-index list. -/
theorem chunks_concat_destIndices (i m b : Nat) (hb : 1 ≤ b) :
    (kRange (destIndices i m).length b).flatMap
      (fun k => ((destIndices i m).drop k).take b) = destIndices i m :=
  kRange_chunks_concat b hb (destIndices i m).length (destIndices i m) le_rfl

theorem plannedBatches_eq (n m b : Nat) :
    plannedBatches n m b = (List.range n).flatMap fun i =>
      (kRange (destIndices i m).length b).map fun k =>
        (i, ((destIndices i m).drop k).take b) := rfl

/-- Emitting pairs from one origin's chunk descriptors, flattened. -/
theorem flatMap_map_pair (l : List Nat) (f : Nat → List Nat) (i : Nat) :
    (l.map fun k => (i, f k)).flatMap (fun d : Nat × List Nat => d.2.map (d.1, ·)) =
      (l.flatMap f).map (i, ·) := by
  induction l with
  | nil => rfl
  | cons a t ih => simp [List.flatMap_cons, ih]

/-- The planner's combined coverage is the strict upper triangle, origin by
origin. -/
theorem coveredPairs_eq (n m b : Nat) (hb : 1 ≤ b) :
    coveredPairs n m b = (List.range n).flatMap fun i => (destIndices i m).map (i, ·) := by
  rw [coveredPairs, plannedBatches_eq, List.flatMap_assoc]
  apply List.flatMap_congr
  intro i _
  rw [flatMap_map_pair, chunks_concat_destIndices i m b hb]

theorem mem_coveredPairs (n m b : Nat) (hb : 1 ≤ b) (p : Nat × Nat) :
    p ∈ coveredPairs n m b ↔ p.1 < n ∧ p.1 < p.2 ∧ p.2 < m := by
  rw [coveredPairs_eq n m b hb]
  constructor
  · intro hp
    rcases List.mem_flatMap.1 hp with ⟨i, hi, hmem⟩
    rcases List.mem_map.1 hmem with ⟨j, hj, hpe⟩
    subst hpe
    rcases mem_destIndices.1 hj with ⟨h1, h2⟩
    exact ⟨List.mem_range.1 hi, h1, h2⟩
  · rintro ⟨h1, h2, h3⟩
    exact List.mem_flatMap.2 ⟨p.1, List.mem_range.2 h1,
      List.mem_map.2 ⟨p.2, mem_destIndices.2 ⟨h2, h3⟩, rfl⟩⟩

theorem coveredPairs_nodup (n m b : Nat) (hb : 1 ≤ b) : (coveredPairs n m b).Nodup := by
  rw [coveredPairs_eq n m b hb]
  apply List.nodup_flatMap.2
  constructor
  · intro i _
    refine List.Nodup.map ?_ ?_
    · intro j j' h
      simpa using congrArg Prod.snd h
    · exact List.nodup_range' _ _
  · apply (List.pairwise_lt_range n).imp
    intro i i' hlt p hp hp'
    rcases List.mem_map.1 hp with ⟨j, _, hpe⟩
    rcases List.mem_map.1 hp' with ⟨j', _, hpe'⟩
    have h1 : p.1 = i := by rw [← hpe]
    have h2 : p.1 = i' := by rw [← hpe']
    omega

/-- Every descriptor's chunk has length at most the batch size. -/
theorem plannedBatches_chunk_le (n m b : Nat) (d : Nat × List Nat)
    (hd : d ∈ plannedBatches n m b) : d.2.length ≤ b := by
  rw [plannedBatches_eq] at hd
  rcases List.mem_flatMap.1 hd with ⟨i, _, hmem⟩
  rcases List.mem_map.1 hmem with ⟨k, _, hde⟩
  subst hde
  simp

/-- The descriptors of origin `i`, in emitted order, are its chunk list. -/
theorem plannedBatches_filter (n m b i : Nat) (hi : i < n) :
    (plannedBatches n m b).filter (fun d => d.1 == i) =
      (kRange (destIndices i m).length b).map fun k =>
        (i, ((destIndices i m).drop k).take b) := by
  rw [plannedBatches_eq]
  have hsplit : ∀ (l : List Nat) (f : Nat → List (Nat × List Nat)) (p : Nat × List Nat → Bool),
      (l.flatMap f).filter p = l.flatMap fun x => (f x).filter p := by
    intro l f p
    induction l with
    | nil => rfl
    | cons h t ih => simp [List.flatMap_cons, List.filter_append, ih]
  rw [hsplit]
  have hgroup : ∀ i' : Nat, (((kRange (destIndices i' m).length b).map fun k =>
      (i', ((destIndices i' m).drop k).take b)).filter (fun d => d.1 == i)) =
      if i' = i then ((kRange (destIndices i' m).length b).map fun k =>
        (i', ((destIndices i' m).drop k).take b)) else [] := by
    intro i'
    by_cases h : i' = i
    · subst h
      rw [if_pos rfl]
      apply List.filter_eq_self.2
      intro d hd
      rcases List.mem_map.1 hd with ⟨k, _, hde⟩
      subst hde
      exact beq_self_eq_true i'
    · rw [if_neg h]
      apply List.filter_eq_nil_iff.2
      intro d hd
      rcases List.mem_map.1 hd with ⟨k, _, hde⟩
      subst hde
      simpa using h
  rw [List.flatMap_congr fun i' _ => hgroup i']
  have : ∀ l : List Nat, i ∈ l → l.Nodup →
      (l.flatMap fun i' => if i' = i then ((kRange (destIndices i' m).length b).map fun k =>
        (i', ((destIndices i' m).drop k).take b)) else []) =
      ((kRange (destIndices i m).length b).map fun k =>
        (i, ((destIndices i m).drop k).take b)) := by
    intro l
    induction l with
    | nil => intro h; exact absurd h (List.not_mem_nil i)
    | cons x t ih =>
        intro hmem hnd
        rcases List.nodup_cons.1 hnd with ⟨hx, ht⟩
        by_cases hxi : x = i
        · rw [List.flatMap_cons, hxi, if_pos rfl]
          have hrest : (t.flatMap fun i' => if i' = i then
              ((kRange (destIndices i' m).length b).map fun k =>
                (i', ((destIndices i' m).drop k).take b)) else []) = [] := by
            apply List.flatMap_eq_nil_iff.2
            intro i' hi'
            rw [if_neg]
            intro he
            rw [he, ← hxi] at hi'
            exact hx hi'
          rw [hrest, List.append_nil]
        · rw [List.flatMap_cons, if_neg hxi, List.nil_append]
          apply ih _ ht
          rcases List.mem_cons.1 hmem with h | h
          · exact absurd h.symm hxi
          · exact h
  exact this (List.range n) (List.mem_range.2 hi) (List.nodup_range n)

/-! ## Cache-key serialization lemmas -/

theorem jsonEscapeChar_plain {c : Char} (h : PlainChar c) : jsonEscapeChar c = [c] := by
  obtain ⟨h1, h2, h3, h4⟩ := h
  have hne : ∀ x : Char, x.toNat < 0x20 → c ≠ x := by
    intro x hx he
    rw [he] at h3
    omega
  rw [jsonEscapeChar, if_neg h1, if_neg h2, if_neg (hne _ (by decide)),
    if_neg (hne _ (by decide)), if_neg (hne _ (by decide)), if_neg (hne _ (by decide)),
    if_neg (hne _ (by decide)), if_neg (by omega), if_pos (by omega)]

theorem flatMap_escape_plain {s : Str} (h : PlainStr s) : s.flatMap jsonEscapeChar = s := by
  induction s with
  | nil => rfl
  | cons c rest ih =>
      rw [List.flatMap_cons, jsonEscapeChar_plain (h c (List.mem_cons_self c rest)),
        ih fun x hx => h x (List.mem_cons_of_mem c hx), List.singleton_append]

theorem jsonStr_plain {s : Str} (h : PlainStr s) : jsonStr s = '"' :: s ++ ['"'] := by
  rw [jsonStr, flatMap_escape_plain h]

/-- A plain string followed by a closing quote is a prefix code: the first
quote delimits it. -/
theorem quoted_append_inj {s t : Str} {r r' : Str} (hs : PlainStr s) (ht : PlainStr t)
    (h : s ++ '"' :: r = t ++ '"' :: r') : s = t ∧ r = r' := by
  induction s generalizing t with
  | nil =>
      cases t with
      | nil => simpa using h
      | cons c t' =>
          rw [List.nil_append, List.cons_append] at h
          have hc : '"' = c := congrArg (fun l => l.headD ' ') h
          exact absurd hc.symm (ht c (List.mem_cons_self c t')).1
  | cons c s' ih =>
      cases t with
      | nil =>
          rw [List.nil_append, List.cons_append] at h
          have hc : c = '"' := congrArg (fun l => l.headD ' ') h
          exact absurd hc (hs c (List.mem_cons_self c s')).1
      | cons e t' =>
          rw [List.cons_append, List.cons_append, List.cons_eq_cons] at h
          obtain ⟨hce, htail⟩ := h
          obtain ⟨hst, hrr⟩ := ih (fun x hx => hs x (List.mem_cons_of_mem c hx))
            (fun x hx => ht x (List.mem_cons_of_mem e hx)) htail
          exact ⟨by rw [hce, hst], hrr⟩

/-- `json.dumps` of a plain string, followed by anything, determines the
string and the remainder. -/
theorem jsonStr_append_inj {s t : Str} {r r' : Str} (hs : PlainStr s) (ht : PlainStr t)
    (h : jsonStr s ++ r = jsonStr t ++ r') : s = t ∧ r = r' := by
  rw [jsonStr_plain hs, jsonStr_plain ht] at h
  simp only [List.cons_append, List.append_assoc, List.singleton_append,
    List.cons_eq_cons] at h
  exact quoted_append_inj hs ht h.2

/-- The encoded item list of a JSON string array, followed by anything,
determines the string list and the remainder. -/
theorem encodeItems_append_inj {l l' : List Str} {r r' : Str}
    (hl : PlainList l) (hl' : PlainList l')
    (h : encodeItems l ++ r = encodeItems l' ++ r') : l = l' ∧ r = r' := by
  induction l generalizing l' r r' with
  | nil =>
      cases l' with
      | nil => simpa [encodeItems] using h
      | cons t rest' =>
          exfalso
          have ht : PlainStr t := hl' t (List.mem_cons_self t rest')
          have hhead : (encodeItems [] ++ r).headD ' ' = (encodeItems (t :: rest') ++ r').headD ' ' :=
            congrArg (fun l => l.headD ' ') h
          cases rest' with
          | nil =>
              rw [show encodeItems [t] = jsonStr t ++ [']'] from rfl, jsonStr_plain ht] at hhead
              simp [encodeItems] at hhead
          | cons t2 rest2 =>
              rw [show encodeItems (t :: t2 :: rest2) =
                jsonStr t ++ ',' :: ' ' :: encodeItems (t2 :: rest2) from rfl,
                jsonStr_plain ht] at hhead
              simp [encodeItems] at hhead
  | cons s srest ih =>
      have hs : PlainStr s := hl s (List.mem_cons_self s srest)
      have hsrest : PlainList srest := fun x hx => hl x (List.mem_cons_of_mem s hx)
      cases l' with
      | nil =>
          exfalso
          have hhead : (encodeItems (s :: srest) ++ r).headD ' ' =
              (encodeItems [] ++ r').headD ' ' := congrArg (fun l => l.headD ' ') h
          cases srest with
          | nil =>
              rw [show encodeItems [s] = jsonStr s ++ [']'] from rfl, jsonStr_plain hs] at hhead
              simp [encodeItems] at hhead
          | cons s2 rest2 =>
              rw [show encodeItems (s :: s2 :: rest2) =
                jsonStr s ++ ',' :: ' ' :: encodeItems (s2 :: rest2) from rfl,
                jsonStr_plain hs] at hhead
              simp [encodeItems] at hhead
      | cons t trest =>
          have ht : PlainStr t := hl' t (List.mem_cons_self t trest)
          have htrest : PlainList trest := fun x hx => hl' x (List.mem_cons_of_mem t hx)
          cases srest with
          | nil =>
              cases trest with
              | nil =>
                  rw [show encodeItems [s] = jsonStr s ++ [']'] from rfl,
                    show encodeItems [t] = jsonStr t ++ [']'] from rfl] at h
                  simp only [List.append_assoc, List.singleton_append] at h
                  obtain ⟨hst, htl⟩ := jsonStr_append_inj hs ht h
                  exact ⟨by rw [hst], by injection htl⟩
              | cons t2 trest2 =>
                  exfalso
                  rw [show encodeItems [s] = jsonStr s ++ [']'] from rfl,
                    show encodeItems (t :: t2 :: trest2) =
                      jsonStr t ++ ',' :: ' ' :: encodeItems (t2 :: trest2) from rfl] at h
                  simp only [List.append_assoc, List.singleton_append, List.cons_append] at h
                  obtain ⟨hst, htl⟩ := jsonStr_append_inj hs ht h
                  injection htl with hbad
                  exact absurd hbad (by decide)
          | cons s2 srest2 =>
              cases trest with
              | nil =>
                  exfalso
                  rw [show encodeItems (s :: s2 :: srest2) =
                      jsonStr s ++ ',' :: ' ' :: encodeItems (s2 :: srest2) from rfl,
                    show encodeItems [t] = jsonStr t ++ [']'] from rfl] at h
                  simp only [List.append_assoc, List.singleton_append, List.cons_append] at h
                  obtain ⟨hst, htl⟩ := jsonStr_append_inj hs ht h
                  injection htl with hbad
                  exact absurd hbad (by decide)
              | cons t2 trest2 =>
                  rw [show encodeItems (s :: s2 :: srest2) =
                      jsonStr s ++ ',' :: ' ' :: encodeItems (s2 :: srest2) from rfl,
                    show encodeItems (t :: t2 :: trest2) =
                      jsonStr t ++ ',' :: ' ' :: encodeItems (t2 :: trest2) from rfl] at h
                  simp only [List.append_assoc, List.cons_append] at h
                  obtain ⟨hst, htl⟩ := jsonStr_append_inj hs ht h
                  injection htl with _ htl2
                  injection htl2 with _ htl3
                  obtain ⟨hrest, hr⟩ := ih hsrest htrest htl3
                  exact ⟨by rw [hst, hrest], hr⟩

/-- Closed form of the serialized cache-key record: the three fields appear
sorted by name — `destinations`, `mode`, `origins` — regardless of the
construction order in the source. -/
theorem key_data_eq (o d : List Str) (m : Str) :
    key_data o d m =
      "\x7b\"destinations\": [".toList ++ (encodeItems d ++
        (", \"mode\": ".toList ++ (jsonStr m ++
          (", \"origins\": [".toList ++ (encodeItems o ++ "\x7d".toList))))) := rfl

/-- On plain strings, the serialized cache-key record is injective in the
request triple. -/
theorem key_data_inj {o d o' d' : List Str} {m m' : Str}
    (ho : PlainList o) (hd : PlainList d) (ho' : PlainList o') (hd' : PlainList d')
    (hm : PlainStr m) (hm' : PlainStr m')
    (h : key_data o d m = key_data o' d' m') : o = o' ∧ d = d' ∧ m = m' := by
  rw [key_data_eq, key_data_eq] at h
  have h1 := List.append_cancel_left h
  obtain ⟨hdeq, h2⟩ := encodeItems_append_inj hd hd' h1
  have h3 := List.append_cancel_left h2
  obtain ⟨hmeq, h4⟩ := jsonStr_append_inj hm hm' h3
  have h5 := List.append_cancel_left h4
  obtain ⟨hoeq, _⟩ := encodeItems_append_inj ho ho' h5
  exact ⟨hoeq, hdeq, hmeq⟩

/-! ## Transformation-loop lemmas -/

theorem transformElems_spec (resp : J) (i : Nat) :
    ∀ (dsts : List Str) (j : Nat) (acc inner : InnerMap),
      transformElems resp i j dsts acc = .ok inner →
      dsts.Nodup → (∀ d ∈ dsts, d ∉ alKeys acc) →
      alKeys inner = alKeys acc ++ dsts ∧
      (∀ k, k ∉ dsts → alGet? k inner = alGet? k acc) ∧
      (∀ t (ht : t < dsts.length), ∃ f, elemTrans resp i (j + t) = .ok f ∧
        alGet? (dsts.get ⟨t, ht⟩) inner = some f) := by
  intro dsts
  induction dsts with
  | nil =>
      intro j acc inner hok _ _
      have : acc = inner := by
        simpa [transformElems] using hok
      subst this
      refine ⟨by simp, fun k _ => rfl, fun t ht => absurd ht (by simp)⟩
  | cons d rest ih =>
      intro j acc inner hok hnd hfresh
      rcases List.nodup_cons.1 hnd with ⟨hd_not, hnd'⟩
      rw [transformElems] at hok
      rcases hel : elemTrans resp i j with e | f
      · rw [hel] at hok
        exact absurd hok (by simp)
      · rw [hel] at hok
        have hfresh' : ∀ x ∈ rest, x ∉ alKeys (alSet d f acc) := by
          intro x hx
          rw [alKeys_alSet_not_mem _ _ _ (hfresh d (List.mem_cons_self d rest))]
          intro hmem
          rcases List.mem_append.1 hmem with hmem | hmem
          · exact hfresh x (List.mem_cons_of_mem d hx) hmem
          · simp at hmem
            subst hmem
            exact hd_not hx
        obtain ⟨hkeys, hpres, hidx⟩ := ih (j + 1) (alSet d f acc) inner hok hnd' hfresh'
        refine ⟨?_, ?_, ?_⟩
        · rw [hkeys, alKeys_alSet_not_mem _ _ _ (hfresh d (List.mem_cons_self d rest))]
          simp
        · intro k hk
          have hkd : k ≠ d := fun he => hk (he ▸ List.mem_cons_self d rest)
          have hkrest : k ∉ rest := fun hm => hk (List.mem_cons_of_mem d hm)
          rw [hpres k hkrest, alGet?_alSet_ne _ _ _ _ hkd]
        · intro t ht
          cases t with
          | zero =>
              refine ⟨f, by simpa using hel, ?_⟩
              show alGet? d inner = some f
              rw [hpres d hd_not, alGet?_alSet_self]
          | succ t' =>
              have ht' : t' < rest.length := by simpa using ht
              obtain ⟨f', hf', hget⟩ := hidx t' ht'
              refine ⟨f', ?_, ?_⟩
              · have : j + (t' + 1) = j + 1 + t' := by omega
                rw [this]
                exact hf'
              · simpa using hget

theorem transformElems_isOk (resp : J) (i : Nat) :
    ∀ (dsts : List Str) (j : Nat) (acc : InnerMap),
      (∀ t, t < dsts.length → ∃ f, elemTrans resp i (j + t) = .ok f) →
      ∃ inner, transformElems resp i j dsts acc = .ok inner := by
  intro dsts
  induction dsts with
  | nil => intro j acc _; exact ⟨acc, rfl⟩
  | cons d rest ih =>
      intro j acc hall
      obtain ⟨f, hf⟩ := hall 0 (by simp)
      rw [Nat.add_zero] at hf
      obtain ⟨inner, hinner⟩ := ih (j + 1) (alSet d f acc) fun t ht => by
        have : j + 1 + t = j + (t + 1) := by omega
        rw [this]
        exact hall (t + 1) (by simpa using Nat.succ_lt_succ ht)
      exact ⟨inner, by rw [transformElems, hf]; exact hinner⟩

theorem transformRows_spec (resp : J) (destinations : List Str) :
    ∀ (orgs : List Str) (i : Nat) (acc mat : DistMatrix),
      transformRows resp destinations i orgs acc = .ok mat →
      orgs.Nodup → (∀ o ∈ orgs, o ∉ alKeys acc) →
      alKeys mat = alKeys acc ++ orgs ∧
      (∀ k, k ∉ orgs → alGet? k mat = alGet? k acc) ∧
      (∀ t (ht : t < orgs.length), ∃ inner,
        alGet? (orgs.get ⟨t, ht⟩) mat = some inner ∧
        transformElems resp (i + t) 0 destinations [] = .ok inner) := by
  intro orgs
  induction orgs with
  | nil =>
      intro i acc mat hok _ _
      have : acc = mat := by simpa [transformRows] using hok
      subst this
      refine ⟨by simp, fun k _ => rfl, fun t ht => absurd ht (by simp)⟩
  | cons o rest ih =>
      intro i acc mat hok hnd hfresh
      rcases List.nodup_cons.1 hnd with ⟨ho_not, hnd'⟩
      rw [transformRows] at hok
      rcases hrow : transformElems resp i 0 destinations [] with e | inner0
      · rw [hrow] at hok
        exact absurd hok (by simp)
      · rw [hrow] at hok
        have hfresh' : ∀ x ∈ rest, x ∉ alKeys (alSet o inner0 acc) := by
          intro x hx
          rw [alKeys_alSet_not_mem _ _ _ (hfresh o (List.mem_cons_self o rest))]
          intro hmem
          rcases List.mem_append.1 hmem with hmem | hmem
          · exact hfresh x (List.mem_cons_of_mem o hx) hmem
          · simp at hmem
            subst hmem
            exact ho_not hx
        obtain ⟨hkeys, hpres, hidx⟩ := ih (i + 1) (alSet o inner0 acc) mat hok hnd' hfresh'
        refine ⟨?_, ?_, ?_⟩
        · rw [hkeys, alKeys_alSet_not_mem _ _ _ (hfresh o (List.mem_cons_self o rest))]
          simp
        · intro k hk
          have hko : k ≠ o := fun he => hk (he ▸ List.mem_cons_self o rest)
          have hkrest : k ∉ rest := fun hm => hk (List.mem_cons_of_mem o hm)
          rw [hpres k hkrest, alGet?_alSet_ne _ _ _ _ hko]
        · intro t ht
          cases t with
          | zero =>
              refine ⟨inner0, ?_, by simpa using hrow⟩
              show alGet? o mat = some inner0
              rw [hpres o ho_not, alGet?_alSet_self]
          | succ t' =>
              have ht' : t' < rest.length := by simpa using ht
              obtain ⟨inner, hget, htr⟩ := hidx t' ht'
              refine ⟨inner, by simpa using hget, ?_⟩
              have : i + (t' + 1) = i + 1 + t' := by omega
              rw [this]
              exact htr

theorem transformRows_isOk (resp : J) (destinations : List Str) :
    ∀ (orgs : List Str) (i : Nat) (acc : DistMatrix),
      (∀ t, t < orgs.length → ∃ inner, transformElems resp (i + t) 0 destinations [] = .ok inner) →
      ∃ mat, transformRows resp destinations i orgs acc = .ok mat := by
  intro orgs
  induction orgs with
  | nil => intro i acc _; exact ⟨acc, rfl⟩
  | cons o rest ih =>
      intro i acc hall
      obtain ⟨inner0, hrow⟩ := hall 0 (by simp)
      rw [Nat.add_zero] at hrow
      obtain ⟨mat, hmat⟩ := ih (i + 1) (alSet o inner0 acc) fun t ht => by
        have : i + 1 + t = i + (t + 1) := by omega
        rw [this]
        exact hall (t + 1) (by simpa using Nat.succ_lt_succ ht)
      exact ⟨mat, by rw [transformRows, hrow]; exact hmat⟩

/-- Structure of a successful transformation: keys are the input origins in
order; under each origin the keys are the input destinations in order, each
bound to its transformed element. -/
theorem transformResponse_spec {origins destinations : List Str} {resp : J} {mat : DistMatrix}
    (h : transformResponse origins destinations resp = .ok mat)
    (hno : origins.Nodup) (hnd : destinations.Nodup) :
    alKeys mat = origins ∧
    ∀ t (ht : t < origins.length), ∃ inner,
      alGet? (origins.get ⟨t, ht⟩) mat = some inner ∧
      alKeys inner = destinations ∧
      ∀ u (hu : u < destinations.length), ∃ f,
        elemTrans resp t u = .ok f ∧ alGet? (destinations.get ⟨u, hu⟩) inner = some f := by
  rw [transformResponse] at h
  obtain ⟨hkeys, _, hidx⟩ := transformRows_spec resp destinations origins 0 [] mat h hno
    (fun o _ => by rw [alKeys_nil]; exact List.not_mem_nil o)
  constructor
  · simpa [alKeys_nil] using hkeys
  · intro t ht
    obtain ⟨inner, hget, htr⟩ := hidx t ht
    obtain ⟨hkeys', _, hidx'⟩ := transformElems_spec resp (0 + t) destinations 0 [] inner htr hnd
      (fun d _ => by rw [alKeys_nil]; exact List.not_mem_nil d)
    refine ⟨inner, hget, by simpa [alKeys_nil] using hkeys', ?_⟩
    intro u hu
    obtain ⟨f, hf, hget'⟩ := hidx' u hu
    refine ⟨f, ?_, hget'⟩
    have h0t : (0 : Nat) + t = t := by omega
    have h0u : (0 : Nat) + u = u := by omega
    rw [h0t, h0u] at hf
    exact hf

/-- When every element access succeeds, the whole transformation does. -/
theorem transformResponse_isOk {origins destinations : List Str} {resp : J}
    (h : elemsOk origins destinations resp = true) :
    ∃ mat, transformResponse origins destinations resp = .ok mat := by
  rw [transformResponse]
  apply transformRows_isOk
  intro t ht
  apply transformElems_isOk
  intro u hu
  have h1 := List.all_eq_true.1 h t (List.mem_range.2 (by simpa using ht))
  have h2 := List.all_eq_true.1 h1 u (List.mem_range.2 (by simpa using hu))
  rcases he : elemTrans resp t u with e | f
  · rw [he] at h2
    simp at h2
  · have h0t : (0 : Nat) + t = t := by omega
    have h0u : (0 : Nat) + u = u := by omega
    rw [h0t, h0u]
    exact ⟨f, he⟩

/-- The transformation reads the response only through its `rows` field:
the resolved `origin_addresses`/`destination_addresses` never matter. -/
theorem transformResponse_rows_congr (origins destinations : List Str) (resp resp' : J)
    (h : jGet? "rows".toList resp = jGet? "rows".toList resp') :
    transformResponse origins destinations resp =
      transformResponse origins destinations resp' := by
  have hel : ∀ i j, elemTrans resp i j = elemTrans resp' i j := by
    intro i j
    rw [elemTrans, elemTrans, elemAt, elemAt, h]
  have helems : ∀ dsts i j acc, transformElems resp i j dsts acc =
      transformElems resp' i j dsts acc := by
    intro dsts
    induction dsts with
    | nil => intro i j acc; rfl
    | cons d rest ih =>
        intro i j acc
        rw [transformElems, transformElems, hel i j]
        rcases elemTrans resp' i j with e | f
        · rfl
        · exact ih i (j + 1) (alSet d f acc)
  have hrows : ∀ orgs i acc, transformRows resp destinations i orgs acc =
      transformRows resp' destinations i orgs acc := by
    intro orgs
    induction orgs with
    | nil => intro i acc; rfl
    | cons o rest ih =>
        intro i acc
        rw [transformRows, transformRows, helems destinations i 0 []]
        rcases transformElems resp' i 0 destinations [] with e | inner
        · rfl
        · exact ih (i + 1) (alSet o inner acc)
  exact hrows origins 0 []

/-! ## Unbatched-path behaviour -/

theorem get_distance_matrix_hit (svc : Svc) (env : Env) (cache : Cache)
    (origins destinations : List Str) (mode : Str) (stored : J)
    (hhit : alGet? (_matrix_cache_key origins destinations mode) cache = some stored) :
    get_distance_matrix svc env cache origins destinations mode =
      (transformResponse origins destinations stored, cache, 0) := by
  rw [get_distance_matrix]
  rw [hhit]

theorem get_distance_matrix_miss (svc : Svc) (env : Env) (cache : Cache)
    (origins destinations : List Str) (mode : Str)
    (hmiss : alGet? (_matrix_cache_key origins destinations mode) cache = none)
    (hkey : apiKeyPresent env = true) :
    get_distance_matrix svc env cache origins destinations mode =
      (transformResponse origins destinations (svc origins destinations mode),
       alSet (_matrix_cache_key origins destinations mode)
         (svc origins destinations mode) cache, 1) := by
  rw [get_distance_matrix]
  rw [hmiss, hkey]
  rfl

theorem get_distance_matrix_no_key (svc : Svc) (env : Env) (cache : Cache)
    (origins destinations : List Str) (mode : Str)
    (hmiss : alGet? (_matrix_cache_key origins destinations mode) cache = none)
    (hkey : apiKeyPresent env = false) :
    get_distance_matrix svc env cache origins destinations mode =
      (.error (.valueError apiKeyMissingMsg), cache, 0) := by
  rw [get_distance_matrix]
  rw [hmiss, hkey]
  rfl

/-! ## Descriptor geometry -/

theorem drop_range'_eq (s len k : Nat) :
    (List.range' s len).drop k = List.range' (s + k) (len - k) := by
  rcases Nat.le_total k len with h | h
  · have hsplit : List.range' s k ++ List.range' (s + k) (len - k) = List.range' s len := by
      have happ := List.range'_append s k (len - k) 1
      rw [one_mul] at happ
      rw [happ]
      congr 1
      omega
    have hdl := List.drop_left (List.range' s k) (List.range' (s + k) (len - k))
    rw [List.length_range'] at hdl
    rw [← hsplit, hdl]
  · have h1 : (List.range' s len).drop k = [] :=
      List.drop_eq_nil_of_le (by rw [List.length_range']; exact h)
    have h2 : len - k = 0 := by omega
    rw [h1, h2]
    rfl

theorem take_range'_eq (s len b : Nat) :
    (List.range' s len).take b = List.range' s (min b len) := by
  rcases Nat.le_total b len with h | h
  · have hmin : min b len = b := by omega
    rw [hmin]
    have hsplit : List.range' s b ++ List.range' (s + b) (len - b) = List.range' s len := by
      have happ := List.range'_append s b (len - b) 1
      rw [one_mul] at happ
      rw [happ]
      congr 1
      omega
    have htl := List.take_left (List.range' s b) (List.range' (s + b) (len - b))
    rw [List.length_range'] at htl
    rw [← hsplit, htl]
  · have hmin : min b len = len := by omega
    rw [hmin, List.take_of_length_le (by rw [List.length_range']; exact h)]

/-- A chunk `dest_indices[k : k + b]` is a contiguous index interval. -/
theorem chunk_eq_range' (s len b k : Nat) :
    ((List.range' s len).drop k).take b = List.range' (s + k) (min b (len - k)) := by
  rw [drop_range'_eq, take_range'_eq]

theorem mem_kRange {k len b : Nat} (hb : 1 ≤ b) : k ∈ kRange len b ↔ b ∣ k ∧ k < len := by
  rw [kRange]
  constructor
  · intro hk
    rcases List.mem_map.1 hk with ⟨t, ht, rfl⟩
    have ht' : t + 1 ≤ (len + b - 1) / b := List.mem_range.1 ht
    have h2 : (t + 1) * b ≤ ((len + b - 1) / b) * b := Nat.mul_le_mul_right b ht'
    have h3 : ((len + b - 1) / b) * b ≤ len + b - 1 := Nat.div_mul_le_self _ _
    rw [Nat.succ_mul] at h2
    exact ⟨⟨t, Nat.mul_comm t b⟩, by omega⟩
  · rintro ⟨⟨q, rfl⟩, hlt⟩
    refine List.mem_map.2 ⟨q, List.mem_range.2 ?_, (Nat.mul_comm q b)⟩
    have hlen : 1 ≤ len := by
      by_contra hc
      omega
    have hceil : (len + b - 1) / b = (len - 1) / b + 1 := by
      have h1 : len + b - 1 = (len - 1) + b := by omega
      rw [h1, Nat.add_div_right _ (by omega)]
    rw [hceil]
    have : q ≤ (len - 1) / b := by
      rw [Nat.le_div_iff_mul_le (by omega : 0 < b)]
      have : q * b = b * q := Nat.mul_comm q b
      omega
    omega

/-- Characterization of the planner's descriptors: origin `i` below `n`,
chunk offset `k` a multiple of `b` below the eligible count, and the chunk
the corresponding contiguous interval of destination indices. -/
theorem mem_plannedBatches_iff {n m b : Nat} (hb : 1 ≤ b) (d : Nat × List Nat) :
    d ∈ plannedBatches n m b ↔ ∃ i k, i < n ∧ (b ∣ k ∧ k < m - (i + 1)) ∧
      d = (i, List.range' (i + 1 + k) (min b (m - (i + 1) - k))) := by
  rw [plannedBatches_eq]
  constructor
  · intro hd
    rcases List.mem_flatMap.1 hd with ⟨i, hi, hmem⟩
    rcases List.mem_map.1 hmem with ⟨k, hk, hde⟩
    have hlen : (destIndices i m).length = m - (i + 1) := by
      rw [destIndices, List.length_range']
    rw [hlen] at hk
    refine ⟨i, k, List.mem_range.1 hi, (mem_kRange hb).1 hk, ?_⟩
    rw [← hde, destIndices, chunk_eq_range']
  · rintro ⟨i, k, hi, hk, rfl⟩
    have hlen : (destIndices i m).length = m - (i + 1) := by
      rw [destIndices, List.length_range']
    refine List.mem_flatMap.2 ⟨i, List.mem_range.2 hi, List.mem_map.2 ⟨k, ?_, ?_⟩⟩
    · rw [hlen]
      exact (mem_kRange hb).2 hk
    · rw [destIndices, chunk_eq_range']

/-- `list.getD` of an in-range index is a member. -/
theorem getD_mem {l : List Str} {i : Nat} (h : i < l.length) : l.getD i [] ∈ l := by
  rw [List.getD_eq_getElem l [] h]
  exact List.getElem_mem h

/-- `list.getD` is injective below the length of a duplicate-free list. -/
theorem getD_inj {l : List Str} (hnd : l.Nodup) {i i' : Nat}
    (hi : i < l.length) (hi' : i' < l.length)
    (h : l.getD i [] = l.getD i' []) : i = i' := by
  rw [List.getD_eq_getElem l [] hi, List.getD_eq_getElem l [] hi'] at h
  exact (List.Nodup.getElem_inj_iff hnd).1 h

/-- Mapping in-range, duplicate-free indices through a duplicate-free list
yields a duplicate-free string list. -/
theorem map_getD_nodup {l : List Str} (hnd : l.Nodup) {js : List Nat}
    (hjnd : js.Nodup) (hbound : ∀ j ∈ js, j < l.length) :
    (js.map fun j => l.getD j []).Nodup := by
  refine hjnd.map_on ?_
  intro j hj j' hj' he
  exact getD_inj hnd (hbound j hj) (hbound j' hj') he

theorem pairwise_flatMap_of {α β : Type} (R : β → β → Prop) (l : List α) (f : α → List β)
    (hin : ∀ a ∈ l, (f a).Pairwise R)
    (hl : l.Pairwise fun a a' => ∀ x ∈ f a, ∀ y ∈ f a', R x y) :
    (l.flatMap f).Pairwise R := by
  induction l with
  | nil => exact List.Pairwise.nil
  | cons a rest ih =>
      rw [List.flatMap_cons]
      rcases List.pairwise_cons.1 hl with ⟨hhead, htail⟩
      refine List.pairwise_append.2 ⟨hin a (List.mem_cons_self a rest), ?_, ?_⟩
      · exact ih (fun x hx => hin x (List.mem_cons_of_mem a hx)) htail
      · intro x hx y hy
        rcases List.mem_flatMap.1 hy with ⟨a', ha', hy'⟩
        exact hhead a' ha' x hx y hy'

/-- Distinct planner descriptors issue distinct sub-requests, hence distinct
cache keys (on plain, duplicate-free inputs); descriptors for the same
origin also cover disjoint destination-index sets. -/
theorem plannedBatches_pairwise (origins destinations : List Str) (mode : Str) (b : Nat)
    (hb : 1 ≤ b) (hno : origins.Nodup) (hnd : destinations.Nodup)
    (hpo : PlainList origins) (hpd : PlainList destinations) (hpm : PlainStr mode) :
    (plannedBatches origins.length destinations.length b).Pairwise fun d d' =>
      descKey origins destinations mode d ≠ descKey origins destinations mode d' ∧
      (d.1 = d'.1 → ∀ j ∈ d.2, j ∉ d'.2) := by
  set n := origins.length with hn
  set m := destinations.length with hm
  have hplain1 : ∀ i, i < n → PlainList [origins.getD i []] := by
    intro i hi s hs
    rw [List.mem_singleton] at hs
    subst hs
    exact hpo _ (getD_mem hi)
  have hplain2 : ∀ js : List Nat, (∀ j ∈ js, j < m) →
      PlainList (js.map fun j => destinations.getD j []) := by
    intro js hjs s hs
    rcases List.mem_map.1 hs with ⟨j, hj, rfl⟩
    exact hpd _ (getD_mem (hjs j hj))
  have hkey_ne : ∀ (i i' : Nat) (js js' : List Nat), i < n → i' < n →
      (∀ j ∈ js, j < m) → (∀ j ∈ js', j < m) →
      (i ≠ i' ∨ ((js.map fun j => destinations.getD j []) ≠
        (js'.map fun j => destinations.getD j []))) →
      descKey origins destinations mode (i, js) ≠ descKey origins destinations mode (i', js') := by
    intro i i' js js' hi hi' hjs hjs' hne he
    rw [descKey, descKey, _matrix_cache_key, _matrix_cache_key] at he
    obtain ⟨ho, hd, _⟩ := key_data_inj (hplain1 i hi) (hplain2 js hjs)
      (hplain1 i' hi') (hplain2 js' hjs') hpm hpm he
    rcases hne with hne | hne
    · have : origins.getD i [] = origins.getD i' [] := by injection ho
      exact hne (getD_inj hno hi hi' this)
    · exact hne hd
  have hchunk_mem : ∀ i k j : Nat, j ∈ ((destIndices i m).drop k).take b → i < j ∧ j < m := by
    intro i k j hj
    exact mem_destIndices.1 (List.mem_of_mem_drop (List.mem_of_mem_take hj))
  rw [plannedBatches_eq]
  apply pairwise_flatMap_of
  · -- within one origin's chunk list
    intro i hi
    have hi' : i < n := List.mem_range.1 hi
    have hlen : (destIndices i m).length = m - (i + 1) := by
      rw [destIndices, List.length_range']
    have hkpair : (kRange (destIndices i m).length b).Pairwise fun k k' =>
        k ∈ kRange (destIndices i m).length b ∧ k' ∈ kRange (destIndices i m).length b ∧
          k < k' := by
      have hbase : (kRange (destIndices i m).length b).Pairwise (· < ·) := by
        rw [kRange]
        refine (List.pairwise_lt_range _).map _ ?_
        intro t t' h
        exact Nat.mul_lt_mul_of_lt_of_le h (Nat.le_refl b) (by omega)
      exact List.Pairwise.and_mem.1 hbase
    refine hkpair.map _ ?_
    intro k k' hkk
    obtain ⟨hkmem, hkmem', hklt⟩ := hkk
    rw [hlen] at hkmem hkmem'
    obtain ⟨⟨q, hq⟩, hkb⟩ := (mem_kRange hb).1 hkmem
    obtain ⟨⟨q', hq'⟩, hkb'⟩ := (mem_kRange hb).1 hkmem'
    have hstep : k + b ≤ k' := by
      have hqq : q < q' := by
        have := hklt
        rw [hq, hq'] at this
        exact Nat.lt_of_mul_lt_mul_left this
      have h1 : b * (q + 1) ≤ b * q' := Nat.mul_le_mul_left b hqq
      rw [Nat.mul_add, Nat.mul_one] at h1
      omega
    have hck : ((destIndices i m).drop k).take b =
        List.range' (i + 1 + k) (min b (m - (i + 1) - k)) := by
      rw [destIndices, chunk_eq_range']
    have hck' : ((destIndices i m).drop k').take b =
        List.range' (i + 1 + k') (min b (m - (i + 1) - k')) := by
      rw [destIndices, chunk_eq_range']
    constructor
    · -- different offsets, different sub-request keys
      apply hkey_ne i i _ _ hi' hi'
        (fun j hj => (hchunk_mem i k j hj).2) (fun j hj => (hchunk_mem i k' j hj).2)
      right
      rw [hck, hck']
      intro he
      have hmem1 : (i + 1 + k) ∈ List.range' (i + 1 + k) (min b (m - (i + 1) - k)) := by
        rw [List.mem_range'_1]
        omega
      have hmem2 : destinations.getD (i + 1 + k) [] ∈
          (List.range' (i + 1 + k') (min b (m - (i + 1) - k'))).map
            (fun j => destinations.getD j []) := by
        rw [← he]
        exact List.mem_map.2 ⟨i + 1 + k, hmem1, rfl⟩
      rcases List.mem_map.1 hmem2 with ⟨j', hj', hje⟩
      rw [List.mem_range'_1] at hj'
      have : j' = i + 1 + k := getD_inj hnd (by omega) (by omega) hje
      omega
    · -- same origin, disjoint destination-index chunks
      intro _ j hj hj'
      rw [hck] at hj
      rw [hck'] at hj'
      rw [List.mem_range'_1] at hj hj'
      omega
  · -- across different origins
    have hpw : (List.range n).Pairwise (· < ·) := List.pairwise_lt_range n
    refine (List.Pairwise.and_mem.1 hpw).imp ?_
    rintro i i' ⟨hi, hi', hlt⟩ x hx y hy
    rcases List.mem_map.1 hx with ⟨k, hk, rfl⟩
    rcases List.mem_map.1 hy with ⟨k', hk', rfl⟩
    constructor
    · exact hkey_ne i i' _ _ (List.mem_range.1 hi) (List.mem_range.1 hi')
        (fun j hj => (hchunk_mem i k j hj).2) (fun j hj => (hchunk_mem i' k' j hj).2)
        (Or.inl (by omega))
    · intro he
      exact absurd he (by omega)

/-! ## Batched-path behaviour -/

theorem mem_alKeys_alSet {k' k : Str} {v : α} {l : List (Str × α)} :
    k' ∈ alKeys (alSet k v l) ↔ k' = k ∨ k' ∈ alKeys l := by
  by_cases h : k ∈ alKeys l
  · rw [alKeys_alSet_mem _ _ _ h]
    constructor
    · exact Or.inr
    · rintro (rfl | hm)
      · exact h
      · exact hm
  · rw [alKeys_alSet_not_mem _ _ _ h, List.mem_append, List.mem_singleton, or_comm]

theorem alGetD_eq_of_some {k : Str} {l : List (Str × α)} {v dflt : α}
    (h : alGet? k l = some v) : alGetD k l dflt = v := by
  rw [alGetD, h]
  rfl

theorem alGetD_eq_of_none {k : Str} {l : List (Str × α)} {dflt : α}
    (h : alGet? k l = none) : alGetD k l dflt = dflt := by
  rw [alGetD, h]
  rfl

theorem batchedStep_error (svc : Svc) (env : Env) (origins destinations : List Str)
    (mode : Str) (e : PyErr) (cache : Cache) (calls : Nat) (d : Nat × List Nat) :
    batchedStep svc env origins destinations mode (.error e, cache, calls) d =
      (.error e, cache, calls) := rfl

/-- A raised exception aborts the whole batched loop unchanged. -/
theorem batched_foldl_error (svc : Svc) (env : Env) (origins destinations : List Str)
    (mode : Str) (ds : List (Nat × List Nat)) (e : PyErr) (cache : Cache) (calls : Nat) :
    ds.foldl (batchedStep svc env origins destinations mode) (.error e, cache, calls) =
      (.error e, cache, calls) := by
  induction ds with
  | nil => rfl
  | cons d rest ih => rw [List.foldl_cons, batchedStep_error, ih]

theorem batchedStep_ok (svc : Svc) (env : Env) (origins destinations : List Str) (mode : Str)
    (res : DistMatrix) (cache : Cache) (calls : Nat) (d : Nat × List Nat)
    (r : DistMatrix) (cache' : Cache) (calls' : Nat) (oa : Str)
    (hcall : get_distance_matrix svc env cache [origins.getD d.1 []]
      (d.2.map fun j => destinations.getD j []) mode = (.ok r, cache', calls'))
    (hhead : (alKeys r).head? = some oa) :
    batchedStep svc env origins destinations mode (.ok res, cache, calls) d =
      (.ok (alSet oa ((alGetD oa r []).foldl (fun a p => alSet p.1 p.2 a) (alGetD oa res []))
        res), cache', calls + calls') := by
  rw [batchedStep]
  dsimp only
  rw [hcall]
  dsimp only
  rw [hhead]

/-- Invariant of the batched loop: starting from a state whose cache holds
only the already-processed descriptors' entries and whose accumulator is
keyed by the already-processed descriptors' input origin strings, folding
the remaining descriptors succeeds, and the final accumulator is keyed by
all descriptors' origin strings, each origin's inner keys being exactly the
destination strings of its descriptors' chunks. -/
theorem batched_fold_spec (svc : Svc) (env : Env) (origins destinations : List Str) (mode : Str)
    (hkey : apiKeyPresent env = true)
    (hsvc : ∀ o dst mo, elemsOk o dst (svc o dst mo) = true)
    (hno : origins.Nodup) (hnd : destinations.Nodup) :
    ∀ (ds done : List (Nat × List Nat)) (res : DistMatrix) (cache : Cache) (calls : Nat),
      ((done ++ ds).Pairwise fun d d' =>
        descKey origins destinations mode d ≠ descKey origins destinations mode d' ∧
        (d.1 = d'.1 → ∀ j ∈ d.2, j ∉ d'.2)) →
      (∀ d ∈ done ++ ds, d.1 < origins.length ∧ d.2 ≠ [] ∧ d.2.Nodup ∧
        ∀ j ∈ d.2, d.1 < j ∧ j < destinations.length) →
      (∀ κ ∈ alKeys cache, ∃ d ∈ done, κ = descKey origins destinations mode d) →
      (∀ κ, κ ∈ alKeys res ↔ ∃ d ∈ done, κ = origins.getD d.1 []) →
      (∀ i, i < origins.length →
        ∀ inner, alGet? (origins.getD i []) res = some inner →
        ∀ s, s ∈ alKeys inner ↔
          ∃ d ∈ done, d.1 = i ∧ ∃ j ∈ d.2, s = destinations.getD j []) →
      ∃ res' cache' calls',
        ds.foldl (batchedStep svc env origins destinations mode) (.ok res, cache, calls) =
          (.ok res', cache', calls') ∧
        (∀ κ ∈ alKeys cache', ∃ d ∈ done ++ ds, κ = descKey origins destinations mode d) ∧
        (∀ κ, κ ∈ alKeys res' ↔ ∃ d ∈ done ++ ds, κ = origins.getD d.1 []) ∧
        (∀ i, i < origins.length →
          ∀ inner, alGet? (origins.getD i []) res' = some inner →
          ∀ s, s ∈ alKeys inner ↔
            ∃ d ∈ done ++ ds, d.1 = i ∧ ∃ j ∈ d.2, s = destinations.getD j []) := by
  intro ds
  induction ds with
  | nil =>
      intro done res cache calls hpair hwf hcache hres hinner
      exact ⟨res, cache, calls, rfl, by simpa using hcache, by simpa using hres,
        by simpa using hinner⟩
  | cons d rest ih =>
      intro done res cache calls hpair hwf hcache hres hinner
      obtain ⟨hd1, hd2ne, hd2nd, hdj⟩ := hwf d (by simp)
      have hpair_cross := (List.pairwise_append.1 hpair).2.2
      -- the current sub-request's key is not yet cached
      have hmiss : alGet? (_matrix_cache_key [origins.getD d.1 []]
          (d.2.map fun j => destinations.getD j []) mode) cache = none := by
        apply alGet?_eq_none_of_not_mem
        intro hmem
        rcases hcache _ hmem with ⟨d'', hd'', hke⟩
        exact (hpair_cross d'' hd'' d (List.mem_cons_self d rest)).1 hke.symm
      have hcall : get_distance_matrix svc env cache [origins.getD d.1 []]
          (d.2.map fun j => destinations.getD j []) mode =
          (transformResponse [origins.getD d.1 []] (d.2.map fun j => destinations.getD j [])
            (svc [origins.getD d.1 []] (d.2.map fun j => destinations.getD j []) mode),
           alSet (_matrix_cache_key [origins.getD d.1 []]
             (d.2.map fun j => destinations.getD j []) mode)
             (svc [origins.getD d.1 []] (d.2.map fun j => destinations.getD j []) mode) cache,
           1) := get_distance_matrix_miss svc env cache _ _ mode hmiss hkey
      obtain ⟨r, hr⟩ := transformResponse_isOk (hsvc [origins.getD d.1 []]
        (d.2.map fun j => destinations.getD j []) mode)
      have hcall2 : get_distance_matrix svc env cache [origins.getD d.1 []]
          (d.2.map fun j => destinations.getD j []) mode =
          (.ok r,
           alSet (_matrix_cache_key [origins.getD d.1 []]
             (d.2.map fun j => destinations.getD j []) mode)
             (svc [origins.getD d.1 []] (d.2.map fun j => destinations.getD j []) mode) cache,
           1) := by
        rw [hcall, hr]
      have hone : ([origins.getD d.1 []] : List Str).Nodup :=
        List.nodup_singleton _
      have hdnd : (d.2.map fun j => destinations.getD j []).Nodup :=
        map_getD_nodup hnd hd2nd fun j hj => (hdj j hj).2
      obtain ⟨hrkeys, hridx⟩ := transformResponse_spec hr hone hdnd
      obtain ⟨rInner, hrIget0, hrIkeys, _⟩ := hridx 0 (by simp)
      have hrIget : alGet? (origins.getD d.1 []) r = some rInner := hrIget0
      have hhead : (alKeys r).head? = some (origins.getD d.1 []) := by
        rw [hrkeys]
        rfl
      have hstepeq := batchedStep_ok svc env origins destinations mode res cache calls d
        r _ 1 (origins.getD d.1 []) hcall2 hhead
      rw [alGetD_eq_of_some hrIget] at hstepeq
      -- freshness of the chunk's destination strings w.r.t. the accumulated inner map
      have hfresh : ∀ s ∈ alKeys rInner, s ∉ alKeys (alGetD (origins.getD d.1 []) res []) := by
        rw [hrIkeys]
        intro s hs hmem
        rcases List.mem_map.1 hs with ⟨j, hj, rfl⟩
        rcases hget : alGet? (origins.getD d.1 []) res with vnone | inn
        · rw [alGetD_eq_of_none hget] at hmem
          exact absurd hmem (by rw [alKeys_nil]; exact List.not_mem_nil _)
        · rw [alGetD_eq_of_some hget] at hmem
          rcases (hinner d.1 hd1 inn hget _).1 hmem with ⟨d'', hd'', hd''1, j'', hj'', hje⟩
          obtain ⟨_, _, _, hdj''⟩ := hwf d'' (List.mem_append_left _ hd'')
          have hjj : j'' = j := getD_inj hnd (hdj'' j'' hj'').2 (hdj j hj).2 hje.symm
          subst hjj
          exact (hpair_cross d'' hd'' d (List.mem_cons_self d rest)).2 hd''1 j'' hj'' hj
      have hmerged_keys : alKeys (rInner.foldl (fun a p => alSet p.1 p.2 a)
          (alGetD (origins.getD d.1 []) res [])) =
          alKeys (alGetD (origins.getD d.1 []) res []) ++
            (d.2.map fun j => destinations.getD j []) := by
        rw [alKeys_foldl_alSet rInner _ hfresh (by rw [hrIkeys]; exact hdnd), hrIkeys]
      -- invariants for the extended processed list
      have hassoc : (done ++ [d]) ++ rest = done ++ d :: rest := by simp
      have hwf' : ∀ d'' ∈ (done ++ [d]) ++ rest, d''.1 < origins.length ∧ d''.2 ≠ [] ∧
          d''.2.Nodup ∧ ∀ j ∈ d''.2, d''.1 < j ∧ j < destinations.length := by
        rw [hassoc]
        exact hwf
      have hpair' : (((done ++ [d]) ++ rest).Pairwise fun d' d'' =>
          descKey origins destinations mode d' ≠ descKey origins destinations mode d'' ∧
          (d'.1 = d''.1 → ∀ j ∈ d'.2, j ∉ d''.2)) := by
        rw [hassoc]
        exact hpair
      have hcache' : ∀ κ ∈ alKeys (alSet (_matrix_cache_key [origins.getD d.1 []]
          (d.2.map fun j => destinations.getD j []) mode)
          (svc [origins.getD d.1 []] (d.2.map fun j => destinations.getD j []) mode) cache),
          ∃ d'' ∈ done ++ [d], κ = descKey origins destinations mode d'' := by
        intro κ hκ
        rcases mem_alKeys_alSet.1 hκ with hκ | hκ
        · exact ⟨d, by simp, hκ⟩
        · rcases hcache κ hκ with ⟨d'', hd'', hke⟩
          exact ⟨d'', List.mem_append_left _ hd'', hke⟩
      have hres' : ∀ κ, κ ∈ alKeys (alSet (origins.getD d.1 [])
          (rInner.foldl (fun a p => alSet p.1 p.2 a) (alGetD (origins.getD d.1 []) res []))
          res) ↔ ∃ d'' ∈ done ++ [d], κ = origins.getD d''.1 [] := by
        intro κ
        rw [mem_alKeys_alSet, hres κ]
        constructor
        · rintro (rfl | ⟨d'', hd'', hke⟩)
          · exact ⟨d, by simp, rfl⟩
          · exact ⟨d'', List.mem_append_left _ hd'', hke⟩
        · rintro ⟨d'', hd'', hke⟩
          rcases List.mem_append.1 hd'' with hd'' | hd''
          · exact Or.inr ⟨d'', hd'', hke⟩
          · rw [List.mem_singleton] at hd''
            subst hd''
            exact Or.inl hke
      have hinner' : ∀ i, i < origins.length →
          ∀ inner, alGet? (origins.getD i []) (alSet (origins.getD d.1 [])
            (rInner.foldl (fun a p => alSet p.1 p.2 a) (alGetD (origins.getD d.1 []) res []))
            res) = some inner →
          ∀ s, s ∈ alKeys inner ↔
            ∃ d'' ∈ done ++ [d], d''.1 = i ∧ ∃ j ∈ d''.2, s = destinations.getD j [] := by
        intro i hi inner hget s
        by_cases hstr : origins.getD i [] = origins.getD d.1 []
        · have hieq : i = d.1 := getD_inj hno hi hd1 hstr
          rw [hstr, alGet?_alSet_self] at hget
          have hinner_eq := Option.some.inj hget
          subst hinner_eq
          rw [hmerged_keys, List.mem_append]
          constructor
          · rintro (hmem | hmem)
            · rcases hget0 : alGet? (origins.getD d.1 []) res with vnone | inn
              · rw [alGetD_eq_of_none hget0] at hmem
                exact absurd hmem (by rw [alKeys_nil]; exact List.not_mem_nil _)
              · rw [alGetD_eq_of_some hget0] at hmem
                rw [← hstr] at hget0
                rcases (hinner i hi inn hget0 s).1 hmem with ⟨d'', hd'', hrest⟩
                exact ⟨d'', List.mem_append_left _ hd'', hrest⟩
            · rcases List.mem_map.1 hmem with ⟨j, hj, rfl⟩
              exact ⟨d, by simp, hieq.symm, j, hj, rfl⟩
          · rintro ⟨d'', hd'', hd''1, j, hj, rfl⟩
            rcases List.mem_append.1 hd'' with hd'' | hd''
            · left
              have hpresent : origins.getD i [] ∈ alKeys res :=
                (hres _).2 ⟨d'', hd'', by rw [hd''1]⟩
              rcases hget0 : alGet? (origins.getD i []) res with vnone | inn
              · exact absurd (alGet?_isSome_of_mem _ _ hpresent) (by rw [hget0]; simp)
              · rw [← hstr, alGetD_eq_of_some hget0]
                exact (hinner i hi inn hget0 _).2 ⟨d'', hd'', hd''1, j, hj, rfl⟩
            · rw [List.mem_singleton] at hd''
              subst hd''
              right
              exact List.mem_map.2 ⟨j, hj, rfl⟩
        · rw [alGet?_alSet_ne _ _ _ _ hstr] at hget
          rw [hinner i hi inner hget s]
          constructor
          · rintro ⟨d'', hd'', hrest⟩
            exact ⟨d'', List.mem_append_left _ hd'', hrest⟩
          · rintro ⟨d'', hd'', hd''1, j, hj, rfl⟩
            rcases List.mem_append.1 hd'' with hd'' | hd''
            · exact ⟨d'', hd'', hd''1, j, hj, rfl⟩
            · rw [List.mem_singleton] at hd''
              subst hd''
              exact absurd (by rw [hd''1]) hstr
      obtain ⟨res', cache', calls', hfold, hc, hk, hiv⟩ := ih (done ++ [d]) _ _ (calls + 1)
        hpair' hwf' hcache' hres' hinner'
      refine ⟨res', cache', calls', ?_, by rw [← hassoc]; exact hc, ?_, ?_⟩
      · rw [List.foldl_cons, hstepeq]
        exact hfold
      · intro κ
        rw [hk κ, hassoc]
      · intro i hi inner hget s
        rw [hiv i hi inner hget s, hassoc]

/-- Structure of a batched run from an empty cache: the assembled matrix is
keyed by exactly the input origin strings that have at least one eligible
destination, and each such origin's inner keys are exactly the input
destination strings of its strict upper triangle. -/
theorem get_distance_matrix_batched_spec (svc : Svc) (env : Env)
    (origins destinations : List Str) (mode : Str) (b : Nat)
    (hb : 1 ≤ b) (hkey : apiKeyPresent env = true)
    (hsvc : ∀ o dst mo, elemsOk o dst (svc o dst mo) = true)
    (hno : origins.Nodup) (hnd : destinations.Nodup)
    (hpo : PlainList origins) (hpd : PlainList destinations) (hpm : PlainStr mode) :
    ∃ res cache' calls,
      get_distance_matrix_batched svc env [] origins destinations mode b =
        (.ok res, cache', calls) ∧
      (∀ κ, κ ∈ alKeys res ↔ ∃ i, i < origins.length ∧ i + 1 < destinations.length ∧
        κ = origins.getD i []) ∧
      (∀ i, i < origins.length → i + 1 < destinations.length →
        ∃ inner, alGet? (origins.getD i []) res = some inner ∧
          ∀ s, s ∈ alKeys inner ↔ ∃ j, i < j ∧ j < destinations.length ∧
            s = destinations.getD j []) := by
  set n := origins.length with hn
  set m := destinations.length with hm
  have hwf : ∀ d ∈ plannedBatches n m b, d.1 < n ∧ d.2 ≠ [] ∧ d.2.Nodup ∧
      ∀ j ∈ d.2, d.1 < j ∧ j < m := by
    intro d hd
    rcases (mem_plannedBatches_iff hb d).1 hd with ⟨i, k, hi, ⟨hdvd, hklt⟩, rfl⟩
    refine ⟨hi, ?_, List.nodup_range' _ _, ?_⟩
    · show List.range' (i + 1 + k) (min b (m - (i + 1) - k)) ≠ []
      intro hnil
      have hlen := congrArg List.length hnil
      rw [List.length_range'] at hlen
      simp only [List.length_nil] at hlen
      omega
    · intro j hj
      have hj' : j ∈ List.range' (i + 1 + k) (min b (m - (i + 1) - k)) := hj
      rw [List.mem_range'_1] at hj'
      show i < j ∧ j < m
      omega
  have hpair := plannedBatches_pairwise origins destinations mode b hb hno hnd hpo hpd hpm
  obtain ⟨res, cache', calls, hfold, hc, hk, hiv⟩ :=
    batched_fold_spec svc env origins destinations mode hkey hsvc hno hnd
      (plannedBatches n m b) [] [] [] 0
      (by rw [List.nil_append]; exact hpair)
      (by rw [List.nil_append]; exact hwf)
      (by intro κ hκ; exact absurd hκ (by rw [alKeys_nil]; exact List.not_mem_nil κ))
      (by
        intro κ
        rw [alKeys_nil]
        constructor
        · intro h
          exact absurd h (List.not_mem_nil κ)
        · rintro ⟨d, hd, _⟩
          exact absurd hd (List.not_mem_nil d))
      (by
        intro i _ inner hget
        rw [show alGet? (origins.getD i []) ([] : DistMatrix) = none from rfl] at hget
        exact absurd hget (by simp))
  rw [List.nil_append] at hc hk hiv
  have hmemdesc : ∀ i, i < n → i + 1 < m →
      (i, List.range' (i + 1) (min b (m - (i + 1)))) ∈ plannedBatches n m b := by
    intro i hi him
    exact (mem_plannedBatches_iff hb _).2 ⟨i, 0, hi, ⟨dvd_zero b, by omega⟩, rfl⟩
  have hkeys2 : ∀ κ, κ ∈ alKeys res ↔ ∃ i, i < n ∧ i + 1 < m ∧ κ = origins.getD i [] := by
    intro κ
    rw [hk κ]
    constructor
    · rintro ⟨d, hd, rfl⟩
      rcases (mem_plannedBatches_iff hb d).1 hd with ⟨i, k, hi, ⟨_, hklt⟩, rfl⟩
      exact ⟨i, hi, by omega, rfl⟩
    · rintro ⟨i, hi, him, rfl⟩
      exact ⟨(i, List.range' (i + 1) (min b (m - (i + 1)))), hmemdesc i hi him, rfl⟩
  refine ⟨res, cache', calls, hfold, hkeys2, ?_⟩
  intro i hi him
  have hpresent : origins.getD i [] ∈ alKeys res := (hkeys2 _).2 ⟨i, hi, him, rfl⟩
  rcases hget : alGet? (origins.getD i []) res with vnone | inner
  · exact absurd (alGet?_isSome_of_mem _ _ hpresent) (by rw [hget]; simp)
  · refine ⟨inner, rfl, ?_⟩
    intro s
    rw [hiv i hi inner hget s]
    constructor
    · rintro ⟨d, hd, hd1, j, hj, rfl⟩
      rcases (mem_plannedBatches_iff hb d).1 hd with ⟨i', k, hi', ⟨_, hklt⟩, rfl⟩
      have hii : i' = i := hd1
      subst hii
      rw [List.mem_range'_1] at hj
      exact ⟨j, by omega, by omega, rfl⟩
    · rintro ⟨j, hij, hjm, rfl⟩
      have hq := Nat.div_add_mod (j - (i + 1)) b
      have hmod : (j - (i + 1)) % b < b := Nat.mod_lt _ (by omega)
      refine ⟨(i, List.range' (i + 1 + b * ((j - (i + 1)) / b))
        (min b (m - (i + 1) - b * ((j - (i + 1)) / b)))), ?_, rfl, j, ?_, rfl⟩
      · apply (mem_plannedBatches_iff hb _).2
        exact ⟨i, b * ((j - (i + 1)) / b), hi, ⟨⟨_, rfl⟩, by omega⟩, rfl⟩
      · rw [List.mem_range'_1]
        constructor
        · omega
        · omega

/-! ## Remaining helpers -/

theorem batchedStep_call_error (svc : Svc) (env : Env) (origins destinations : List Str)
    (mode : Str) (res : DistMatrix) (cache : Cache) (calls : Nat) (d : Nat × List Nat)
    (e : PyErr) (cache' : Cache) (calls' : Nat)
    (hcall : get_distance_matrix svc env cache [origins.getD d.1 []]
      (d.2.map fun j => destinations.getD j []) mode = (.error e, cache', calls')) :
    batchedStep svc env origins destinations mode (.ok res, cache, calls) d =
      (.error e, cache', calls + calls') := by
  rw [batchedStep]
  dsimp only
  rw [hcall]

/-- A successful unbatched call always returns a transformed response
(whether it came from the cache or from the service). -/
theorem get_distance_matrix_ok_transform {svc : Svc} {env : Env} {cache : Cache}
    {origins destinations : List Str} {mode : Str} {mat : DistMatrix} {c : Cache} {k : Nat}
    (h : get_distance_matrix svc env cache origins destinations mode = (.ok mat, c, k)) :
    ∃ resp, transformResponse origins destinations resp = .ok mat := by
  rw [get_distance_matrix] at h
  rcases hc : alGet? (_matrix_cache_key origins destinations mode) cache with _ | stored
  · rw [hc] at h
    by_cases hk : apiKeyPresent env = true
    · rw [if_pos hk] at h
      exact ⟨svc origins destinations mode, congrArg Prod.fst h⟩
    · rw [if_neg hk] at h
      have := congrArg Prod.fst h
      simp at this
  · rw [hc] at h
    exact ⟨stored, congrArg Prod.fst h⟩

theorem strLeB_total (a b : Str) : strLeB a b = true ∨ strLeB b a = true := by
  induction a generalizing b with
  | nil => exact Or.inl rfl
  | cons x xs ih =>
      cases b with
      | nil => exact Or.inr rfl
      | cons y ys =>
          rcases lt_trichotomy x y with h | h | h
          · left
            rw [strLeB, if_pos h]
          · subst h
            rcases ih ys with h' | h'
            · left
              rw [strLeB, if_neg (lt_irrefl x), if_pos rfl]
              exact h'
            · right
              rw [strLeB, if_neg (lt_irrefl x), if_pos rfl]
              exact h'
          · right
            rw [strLeB, if_pos h]

theorem strLeB_trans {a b c : Str} (h1 : strLeB a b = true) (h2 : strLeB b c = true) :
    strLeB a c = true := by
  induction a generalizing b c with
  | nil => rfl
  | cons x xs ih =>
      cases b with
      | nil => exact absurd h1 (by rw [strLeB]; simp)
      | cons y ys =>
          cases c with
          | nil => exact absurd h2 (by rw [strLeB]; simp)
          | cons z zs =>
              rw [strLeB] at h1 h2 ⊢
              by_cases hxy : x < y
              · by_cases hyz : y < z
                · rw [if_pos (lt_trans hxy hyz)]
                · rw [if_neg hyz] at h2
                  by_cases hyz' : y = z
                  · subst hyz'
                    rw [if_pos hxy]
                  · rw [if_neg hyz'] at h2
                    exact absurd h2 (by simp)
              · rw [if_neg hxy] at h1
                by_cases hxy' : x = y
                · subst hxy'
                  rw [if_pos rfl] at h1
                  by_cases hxz : x < z
                  · rw [if_pos hxz]
                  · rw [if_neg hxz] at h2 ⊢
                    by_cases hxz' : x = z
                    · rw [if_pos hxz'] at h2 ⊢
                      exact ih h1 h2
                    · rw [if_neg hxz'] at h2
                      exact absurd h2 (by simp)
                · rw [if_neg hxy'] at h1
                  exact absurd h1 (by simp)

theorem mem_sortedInsertStr {x s : Str} {l : List Str} :
    x ∈ sortedInsertStr s l ↔ x = s ∨ x ∈ l := by
  induction l with
  | nil => simp [sortedInsertStr]
  | cons y rest ih =>
      rw [sortedInsertStr]
      by_cases h : strLeB s y = true
      · rw [if_pos h]
        simp
      · rw [if_neg h]
        rw [List.mem_cons, ih, List.mem_cons]
        tauto

theorem mem_sortStrs {x : Str} {l : List Str} : x ∈ sortStrs l ↔ x ∈ l := by
  induction l with
  | nil => simp [sortStrs]
  | cons y rest ih =>
      rw [sortStrs, List.foldr_cons]
      rw [show List.foldr sortedInsertStr [] rest = sortStrs rest from rfl]
      rw [mem_sortedInsertStr, ih, List.mem_cons]

theorem mem_sortedDedup {x : Str} {l : List Str} : x ∈ sortedDedup l ↔ x ∈ l := by
  rw [sortedDedup, mem_sortStrs, List.mem_dedup]

theorem pairwise_sortedInsertStr (s : Str) (l : List Str)
    (hl : l.Pairwise fun a b => strLeB a b = true) :
    (sortedInsertStr s l).Pairwise fun a b => strLeB a b = true := by
  induction l with
  | nil => simp [sortedInsertStr]
  | cons y rest ih =>
      rcases List.pairwise_cons.1 hl with ⟨hy, hrest⟩
      rw [sortedInsertStr]
      by_cases h : strLeB s y = true
      · rw [if_pos h]
        refine List.pairwise_cons.2 ⟨?_, hl⟩
        intro z hz
        rcases List.mem_cons.1 hz with rfl | hz
        · exact h
        · exact strLeB_trans h (hy z hz)
      · rw [if_neg h]
        refine List.pairwise_cons.2 ⟨?_, ih hrest⟩
        intro z hz
        rcases mem_sortedInsertStr.1 hz with hzs | hz
        · rw [hzs]
          rcases strLeB_total s y with h' | h'
          · exact absurd h' h
          · exact h'
        · exact hy z hz

theorem pairwise_sortStrs (l : List Str) :
    (sortStrs l).Pairwise fun a b => strLeB a b = true := by
  induction l with
  | nil => exact List.Pairwise.nil
  | cons y rest ih => exact pairwise_sortedInsertStr y _ ih

theorem pairwise_sortedDedup (l : List Str) :
    (sortedDedup l).Pairwise fun a b => strLeB a b = true :=
  pairwise_sortStrs _

theorem sortedInsertStr_perm (s : Str) (l : List Str) : (sortedInsertStr s l).Perm (s :: l) := by
  induction l with
  | nil => exact List.Perm.refl [s]
  | cons y rest ih =>
      rw [sortedInsertStr]
      by_cases h : strLeB s y = true
      · rw [if_pos h]
      · rw [if_neg h]
        exact (ih.cons y).trans (List.Perm.swap s y rest)

theorem sortStrs_perm (l : List Str) : (sortStrs l).Perm l := by
  induction l with
  | nil => exact List.Perm.refl []
  | cons y rest ih =>
      rw [sortStrs, List.foldr_cons]
      rw [show List.foldr sortedInsertStr [] rest = sortStrs rest from rfl]
      exact (sortedInsertStr_perm y (sortStrs rest)).trans (ih.cons y)

/-- `sorted(set(...))` yields a duplicate-free list: sorting permutes the
already deduplicated input. -/
theorem sortedDedup_nodup (l : List Str) : (sortedDedup l).Nodup :=
  (sortStrs_perm l.dedup).nodup_iff.2 (List.nodup_dedup l)

theorem map_getD_of_lt {α β : Type} {f : α → β} {l : List α} {i : Nat} (h : i < l.length)
    (dfl : β) (dfl' : α) : (l.map f).getD i dfl = f (l.getD i dfl') := by
  rw [List.getD_eq_getElem _ dfl (by simpa using h), List.getD_eq_getElem _ dfl' h,
    List.getElem_map]

/-- The all-OK oracle's responses are well-formed for every request. -/
theorem svcOkConst_elemsOk : ∀ o dst mo, elemsOk o dst (svcOkConst o dst mo) = true := by
  intro o dst mo
  rw [elemsOk]
  apply List.all_eq_true.2
  intro i hi
  apply List.all_eq_true.2
  intro j hj
  have hio : i < o.length := by simpa using List.mem_range.1 hi
  have hjd : j < dst.length := by simpa using List.mem_range.1 hj
  have he : elemAt (svcOkConst o dst mo) i j = some (.obj
      [("status".toList, .s "OK".toList),
       ("distance".toList, .obj [("text".toList, .s "1 km".toList)]),
       ("duration".toList, .obj [("text".toList, .s "1 min".toList)])]) := by
    rw [elemAt, svcOkConst]
    rw [show jGet? "rows".toList (J.obj
      [("origin_addresses".toList, .arr (o.map J.s)),
       ("destination_addresses".toList, .arr (dst.map J.s)),
       ("rows".toList, .arr (o.map fun _ => .obj
         [("elements".toList, .arr (dst.map fun _ => .obj
           [("status".toList, .s "OK".toList),
            ("distance".toList, .obj [("text".toList, .s "1 km".toList)]),
            ("duration".toList, .obj [("text".toList, .s "1 min".toList)])]))]))]) =
      some (.arr (o.map fun _ => .obj
        [("elements".toList, .arr (dst.map fun _ => .obj
          [("status".toList, .s "OK".toList),
           ("distance".toList, .obj [("text".toList, .s "1 km".toList)]),
           ("duration".toList, .obj [("text".toList, .s "1 min".toList)])]))])) from rfl]
    rw [Option.some_bind]
    rw [show jIdx? i (J.arr (o.map fun _ => J.obj
        [("elements".toList, .arr (dst.map fun _ => .obj
          [("status".toList, .s "OK".toList),
           ("distance".toList, .obj [("text".toList, .s "1 km".toList)]),
           ("duration".toList, .obj [("text".toList, .s "1 min".toList)])]))])) =
      some (.obj [("elements".toList, .arr (dst.map fun _ => .obj
        [("status".toList, .s "OK".toList),
         ("distance".toList, .obj [("text".toList, .s "1 km".toList)]),
         ("duration".toList, .obj [("text".toList, .s "1 min".toList)])]))]) from by
      rw [jIdx?, List.get?_eq_getElem?, List.getElem?_map,
        List.getElem?_eq_getElem hio]
      rfl]
    rw [Option.some_bind]
    rw [show jGet? "elements".toList (J.obj [("elements".toList,
        .arr (dst.map fun _ => J.obj
          [("status".toList, .s "OK".toList),
           ("distance".toList, .obj [("text".toList, .s "1 km".toList)]),
           ("duration".toList, .obj [("text".toList, .s "1 min".toList)])]))]) =
      some (.arr (dst.map fun _ => J.obj
        [("status".toList, .s "OK".toList),
         ("distance".toList, .obj [("text".toList, .s "1 km".toList)]),
         ("duration".toList, .obj [("text".toList, .s "1 min".toList)])])) from rfl]
    rw [Option.some_bind, jIdx?, List.get?_eq_getElem?, List.getElem?_map,
      List.getElem?_eq_getElem hjd]
    rfl
  rw [elemTrans, he]
  rfl

theorem transformElement_not_ok {e st : J} (h : jGet? "status".toList e = some st)
    (hst : isOkStatus st = false) : transformElement e = .ok [("error".toList, st)] := by
  unfold transformElement
  rw [h]
  simp [hst]

theorem transformElement_is_ok {e dv tv : J}
    (h : jGet? "status".toList e = some (J.s "OK".toList))
    (hdv : (jGet? "distance".toList e).bind (jGet? "text".toList) = some dv)
    (htv : (jGet? "duration".toList e).bind (jGet? "text".toList) = some tv) :
    transformElement e = .ok [("distance".toList, dv), ("duration".toList, tv)] := by
  unfold transformElement
  split
  · next heq => rw [h] at heq; exact absurd heq (by simp)
  · next st heq =>
      rw [h] at heq
      have hst := Option.some.inj heq
      subst hst
      rw [if_pos (show isOkStatus (J.s "OK".toList) = true from rfl)]
      split
      · next dv2 tv2 heq1 heq2 =>
          rw [hdv] at heq1
          rw [htv] at heq2
          rw [Option.some.inj heq1, Option.some.inj heq2]
      · next hfail => exact (hfail dv tv hdv htv).elim

/-! # The claims -/

/-- C1: Triangular coverage of the batch planner — for every `n` origins,
`m` destinations and batch size `b ≥ 1`, the `(i, j)` pairs covered by all
descriptors emitted by the planning loop of `get_distance_matrix_batched`,
combined, are exactly `{(i, j) : 0 ≤ i < n, i < j < m}`, with no pair
covered twice and no pair where `j ≤ i`. -/
theorem C1_triangular_coverage (n m b : Nat) (hb : 1 ≤ b) :
    (coveredPairs n m b).Nodup ∧
    ∀ p : Nat × Nat, p ∈ coveredPairs n m b ↔ p.1 < n ∧ p.1 < p.2 ∧ p.2 < m :=
  ⟨coveredPairs_nodup n m b hb, mem_coveredPairs n m b hb⟩

theorem C1_triangular_coverage_witness :
    1 ≤ 2 ∧ ((coveredPairs 4 4 2).Nodup ∧
      ∀ p : Nat × Nat, p ∈ coveredPairs 4 4 2 ↔ p.1 < 4 ∧ p.1 < p.2 ∧ p.2 < 4) :=
  ⟨by decide, C1_triangular_coverage 4 4 2 (by decide)⟩

/-- C2: Cache idempotence of the unbatched path — for a fixed triple
(origins, destinations, mode) whose entry is not yet cached (and with the
API key configured), calling `get_distance_matrix` twice in succession
against the same cache store issues exactly one external service call: the
first call performs it (and stores the response), the second call issues
none, reading the stored entry instead, and returns a result equal to the
first call's result. -/
theorem C2_cache_idempotence (svc : Svc) (env : Env) (cache : Cache)
    (origins destinations : List Str) (mode : Str)
    (hmiss : alGet? (_matrix_cache_key origins destinations mode) cache = none)
    (hkey : apiKeyPresent env = true) :
    ∃ result cache1,
      get_distance_matrix svc env cache origins destinations mode = (result, cache1, 1) ∧
      get_distance_matrix svc env cache1 origins destinations mode = (result, cache1, 0) := by
  refine ⟨transformResponse origins destinations (svc origins destinations mode),
    alSet (_matrix_cache_key origins destinations mode) (svc origins destinations mode) cache,
    get_distance_matrix_miss svc env cache origins destinations mode hmiss hkey, ?_⟩
  exact get_distance_matrix_hit svc env _ origins destinations mode _ (alGet?_alSet_self ..)

theorem C2_cache_idempotence_witness :
    ∃ result cache1,
      get_distance_matrix svcOkConst envTest [] ["A".toList] ["B".toList] "driving".toList =
        (result, cache1, 1) ∧
      get_distance_matrix svcOkConst envTest cache1 ["A".toList] ["B".toList]
        "driving".toList = (result, cache1, 0) :=
  C2_cache_idempotence svcOkConst envTest [] ["A".toList] ["B".toList] "driving".toList
    rfl rfl

/-- C4 counterexample: the claim says the value stored under the
fingerprint is the transformed `DistanceMatrix` returned to the caller. In
fact, after a fresh unbatched call, the stored cache value still has the
raw response's `rows` field, while the returned matrix, persisted in the
same JSON shape, has none — so the stored entry is the raw service
response, not the transformed matrix. -/
theorem C4_cached_value_shape_counterexample :
    ((alGet? (_matrix_cache_key ["A".toList] ["B".toList] "driving".toList)
        (get_distance_matrix svcOkConst envTest [] ["A".toList] ["B".toList]
          "driving".toList).2.1).map fun stored =>
            (jGet? "rows".toList stored).isSome) = some true ∧
    ((get_distance_matrix svcOkConst envTest [] ["A".toList] ["B".toList]
        "driving".toList).1.toOption.map fun mat =>
          (jGet? "rows".toList (matrixToJ mat)).isSome) = some false :=
  ⟨rfl, rfl⟩

/-- C4 as amended: on a cache miss, the value `get_distance_matrix` stores
under the fingerprint is the *raw, untransformed* service response (written
before the transformation even runs); on a subsequent cache hit that stored
raw response is loaded and *re-transformed* by the same element loop, so
the hit's result is the transformation of the stored entry — equal to the
first call's result because the transformation is deterministic, but not a
verbatim read of the stored value. -/
theorem C4_cached_value_shape (svc : Svc) (env : Env) (cache : Cache)
    (origins destinations : List Str) (mode : Str)
    (hmiss : alGet? (_matrix_cache_key origins destinations mode) cache = none)
    (hkey : apiKeyPresent env = true) :
    get_distance_matrix svc env cache origins destinations mode =
      (transformResponse origins destinations (svc origins destinations mode),
       alSet (_matrix_cache_key origins destinations mode)
         (svc origins destinations mode) cache, 1) ∧
    alGet? (_matrix_cache_key origins destinations mode)
      (alSet (_matrix_cache_key origins destinations mode)
        (svc origins destinations mode) cache) = some (svc origins destinations mode) ∧
    get_distance_matrix svc env
      (alSet (_matrix_cache_key origins destinations mode)
        (svc origins destinations mode) cache) origins destinations mode =
      (transformResponse origins destinations (svc origins destinations mode),
       alSet (_matrix_cache_key origins destinations mode)
         (svc origins destinations mode) cache, 0) := by
  refine ⟨get_distance_matrix_miss svc env cache origins destinations mode hmiss hkey,
    alGet?_alSet_self .., ?_⟩
  exact get_distance_matrix_hit svc env _ origins destinations mode _ (alGet?_alSet_self ..)

theorem C4_cached_value_shape_witness :
    get_distance_matrix svcOkConst envTest [] ["A".toList] ["B".toList] "driving".toList =
      (transformResponse ["A".toList] ["B".toList]
        (svcOkConst ["A".toList] ["B".toList] "driving".toList),
       alSet (_matrix_cache_key ["A".toList] ["B".toList] "driving".toList)
         (svcOkConst ["A".toList] ["B".toList] "driving".toList) [], 1) ∧
    alGet? (_matrix_cache_key ["A".toList] ["B".toList] "driving".toList)
      (alSet (_matrix_cache_key ["A".toList] ["B".toList] "driving".toList)
        (svcOkConst ["A".toList] ["B".toList] "driving".toList) []) =
      some (svcOkConst ["A".toList] ["B".toList] "driving".toList) ∧
    get_distance_matrix svcOkConst envTest
      (alSet (_matrix_cache_key ["A".toList] ["B".toList] "driving".toList)
        (svcOkConst ["A".toList] ["B".toList] "driving".toList) [])
      ["A".toList] ["B".toList] "driving".toList =
      (transformResponse ["A".toList] ["B".toList]
        (svcOkConst ["A".toList] ["B".toList] "driving".toList),
       alSet (_matrix_cache_key ["A".toList] ["B".toList] "driving".toList)
         (svcOkConst ["A".toList] ["B".toList] "driving".toList) [], 0) :=
  C4_cached_value_shape svcOkConst envTest [] ["A".toList] ["B".toList] "driving".toList
    rfl rfl

/-- C6: Batch size bound and chunk order — every descriptor's
destination-index chunk has length at most the batch size; concatenating
one origin's chunks in emitted order reproduces its full eligible
destination-index list `[i+1, ..., m-1]` in ascending order with no gaps
and no overlaps; and for 3 origins, 3 destinations, batch size 1 the
planner emits exactly the three descriptors (0, [1]), (0, [2]), (1, [2]),
with origin 2 emitting none. -/
theorem C6_batch_size_bound (n m b : Nat) (hb : 1 ≤ b) :
    (∀ d ∈ plannedBatches n m b, d.2.length ≤ b) ∧
    (∀ i, i < n →
      (((plannedBatches n m b).filter fun d => d.1 == i).flatMap (·.2)) = destIndices i m) ∧
    plannedBatches 3 3 1 = [(0, [1]), (0, [2]), (1, [2])] := by
  refine ⟨fun d hd => plannedBatches_chunk_le n m b d hd, ?_, by decide⟩
  intro i hi
  rw [plannedBatches_filter n m b i hi, List.flatMap_map]
  exact chunks_concat_destIndices i m b hb

theorem C6_batch_size_bound_witness :
    1 ≤ 1 ∧ ((∀ d ∈ plannedBatches 3 3 1, d.2.length ≤ 1) ∧
      (∀ i, i < 3 →
        (((plannedBatches 3 3 1).filter fun d => d.1 == i).flatMap (·.2)) = destIndices i 3) ∧
      plannedBatches 3 3 1 = [(0, [1]), (0, [2]), (1, [2])]) :=
  ⟨by decide, C6_batch_size_bound 3 3 1 (by decide)⟩

/-- C8: Configuration error ordering — with the API key absent (or empty)
and the relevant cache entry absent, the unbatched path raises the
`ValueError` before any network attempt: no service call is made and the
cache is untouched; and the batched path, started from an empty cache with
at least one descriptor to process, raises the same `ValueError` with zero
service calls and an untouched cache. -/
theorem C8_config_error_ordering (svc : Svc) (env : Env) (cache : Cache)
    (origins destinations : List Str) (mode : Str) (b : Nat)
    (hkey : apiKeyPresent env = false) :
    (alGet? (_matrix_cache_key origins destinations mode) cache = none →
      get_distance_matrix svc env cache origins destinations mode =
        (.error (.valueError apiKeyMissingMsg), cache, 0)) ∧
    (1 ≤ b → 1 ≤ origins.length → 2 ≤ destinations.length →
      get_distance_matrix_batched svc env [] origins destinations mode b =
        (.error (.valueError apiKeyMissingMsg), [], 0)) := by
  constructor
  · intro hmiss
    exact get_distance_matrix_no_key svc env cache origins destinations mode hmiss hkey
  · intro hb hn hm
    have hmem : (0, List.range' 1 (min b (destinations.length - 1))) ∈
        plannedBatches origins.length destinations.length b :=
      (mem_plannedBatches_iff hb _).2 ⟨0, 0, by omega, ⟨dvd_zero b, by omega⟩, rfl⟩
    obtain ⟨d0, rest, hpb⟩ : ∃ d0 rest, plannedBatches origins.length destinations.length b =
        d0 :: rest := by
      rcases hpb : plannedBatches origins.length destinations.length b with _ | ⟨d0, rest⟩
      · rw [hpb] at hmem
        exact absurd hmem (List.not_mem_nil _)
      · exact ⟨d0, rest, rfl⟩
    rw [get_distance_matrix_batched, hpb, List.foldl_cons]
    have hcall : get_distance_matrix svc env [] [origins.getD d0.1 []]
        (d0.2.map fun j => destinations.getD j []) mode =
        (.error (.valueError apiKeyMissingMsg), [], 0) :=
      get_distance_matrix_no_key svc env [] _ _ mode rfl hkey
    rw [batchedStep_call_error svc env origins destinations mode [] [] 0 d0 _ [] 0 hcall]
    exact batched_foldl_error svc env origins destinations mode rest _ [] 0

theorem C8_config_error_ordering_witness :
    (alGet? (_matrix_cache_key ["A".toList, "B".toList] ["A".toList, "B".toList]
        "driving".toList) ([] : Cache) = none →
      get_distance_matrix svcOkConst ⟨none⟩ [] ["A".toList, "B".toList]
        ["A".toList, "B".toList] "driving".toList =
        (.error (.valueError apiKeyMissingMsg), [], 0)) ∧
    (1 ≤ 25 → 1 ≤ (["A".toList, "B".toList] : List Str).length →
      2 ≤ (["A".toList, "B".toList] : List Str).length →
      get_distance_matrix_batched svcOkConst ⟨none⟩ [] ["A".toList, "B".toList]
        ["A".toList, "B".toList] "driving".toList 25 =
        (.error (.valueError apiKeyMissingMsg), [], 0)) :=
  C8_config_error_ordering svcOkConst ⟨none⟩ [] ["A".toList, "B".toList]
    ["A".toList, "B".toList] "driving".toList 25 rfl

/-- C7: Fingerprint determinism and order sensitivity — the cache-key
serialization is a pure function of the (origins, destinations, mode)
triple, so two evaluations agree; the three top-level fields are serialized
sorted by name, so every construction order of the record yields the same
bytes; the travel mode is always folded into the key (distinct plain modes
give distinct serialized bytes, hence distinct SHA-256 keys under collision
resistance); and reordering the origins list — any change of the list —
changes the serialized bytes even though the semantic request is unchanged. -/
theorem C7_fingerprint_determinism (origins destinations origins' : List Str)
    (mode mode' : Str)
    (hpo : PlainList origins) (hpd : PlainList destinations) (hpo' : PlainList origins')
    (hpm : PlainStr mode) (hpm' : PlainStr mode')
    (hmode_ne : mode ≠ mode') (horig_ne : origins ≠ origins') :
    (_matrix_cache_key origins destinations mode =
      _matrix_cache_key origins destinations mode) ∧
    (∀ v1 v2 v3 : KeyField,
      (dumpsSorted [("origins".toList, v1), ("destinations".toList, v2),
        ("mode".toList, v3)] =
       dumpsSorted [("destinations".toList, v2), ("mode".toList, v3),
        ("origins".toList, v1)]) ∧
      (dumpsSorted [("origins".toList, v1), ("destinations".toList, v2),
        ("mode".toList, v3)] =
       dumpsSorted [("destinations".toList, v2), ("origins".toList, v1),
        ("mode".toList, v3)]) ∧
      (dumpsSorted [("origins".toList, v1), ("destinations".toList, v2),
        ("mode".toList, v3)] =
       dumpsSorted [("mode".toList, v3), ("origins".toList, v1),
        ("destinations".toList, v2)]) ∧
      (dumpsSorted [("origins".toList, v1), ("destinations".toList, v2),
        ("mode".toList, v3)] =
       dumpsSorted [("mode".toList, v3), ("destinations".toList, v2),
        ("origins".toList, v1)]) ∧
      (dumpsSorted [("origins".toList, v1), ("destinations".toList, v2),
        ("mode".toList, v3)] =
       dumpsSorted [("origins".toList, v1), ("mode".toList, v3),
        ("destinations".toList, v2)])) ∧
    _matrix_cache_key origins destinations mode ≠
      _matrix_cache_key origins destinations mode' ∧
    _matrix_cache_key origins destinations mode ≠
      _matrix_cache_key origins' destinations mode := by
  refine ⟨rfl, fun v1 v2 v3 => ⟨rfl, rfl, rfl, rfl, rfl⟩, ?_, ?_⟩
  · intro he
    exact hmode_ne (key_data_inj hpo hpd hpo hpd hpm hpm' he).2.2
  · intro he
    exact horig_ne (key_data_inj hpo hpd hpo' hpd hpm hpm he).1

theorem C7_fingerprint_determinism_witness :
    (_matrix_cache_key ["A".toList, "B".toList] ["C".toList] "driving".toList =
      _matrix_cache_key ["A".toList, "B".toList] ["C".toList] "driving".toList) ∧
    (∀ v1 v2 v3 : KeyField,
      (dumpsSorted [("origins".toList, v1), ("destinations".toList, v2),
        ("mode".toList, v3)] =
       dumpsSorted [("destinations".toList, v2), ("mode".toList, v3),
        ("origins".toList, v1)]) ∧
      (dumpsSorted [("origins".toList, v1), ("destinations".toList, v2),
        ("mode".toList, v3)] =
       dumpsSorted [("destinations".toList, v2), ("origins".toList, v1),
        ("mode".toList, v3)]) ∧
      (dumpsSorted [("origins".toList, v1), ("destinations".toList, v2),
        ("mode".toList, v3)] =
       dumpsSorted [("mode".toList, v3), ("origins".toList, v1),
        ("destinations".toList, v2)]) ∧
      (dumpsSorted [("origins".toList, v1), ("destinations".toList, v2),
        ("mode".toList, v3)] =
       dumpsSorted [("mode".toList, v3), ("destinations".toList, v2),
        ("origins".toList, v1)]) ∧
      (dumpsSorted [("origins".toList, v1), ("destinations".toList, v2),
        ("mode".toList, v3)] =
       dumpsSorted [("origins".toList, v1), ("mode".toList, v3),
        ("destinations".toList, v2)])) ∧
    _matrix_cache_key ["A".toList, "B".toList] ["C".toList] "driving".toList ≠
      _matrix_cache_key ["A".toList, "B".toList] ["C".toList] "walking".toList ∧
    _matrix_cache_key ["A".toList, "B".toList] ["C".toList] "driving".toList ≠
      _matrix_cache_key ["B".toList, "A".toList] ["C".toList] "driving".toList :=
  C7_fingerprint_determinism ["A".toList, "B".toList] ["C".toList]
    ["B".toList, "A".toList] "driving".toList "walking".toList
    (by decide) (by decide) (by decide) (by decide) (by decide) (by decide) (by decide)

/-- C3 counterexample: with two origins and two destinations (all-OK
service, fresh cache, key configured), the batched matrix's top-level keys
are exactly `["A"]` — the second origin `"B"`, which has zero eligible
destinations, is *absent* from the result instead of present with an empty
inner mapping, because the loop `continue`s past origins with an empty
`dest_indices` without ever creating their key. -/
theorem C3_every_origin_present_counterexample :
    ((get_distance_matrix_batched svcOkConst envTest [] ["A".toList, "B".toList]
        ["A".toList, "B".toList] "driving".toList 25).1.toOption.map alKeys) =
      some ["A".toList] := rfl

/-- C3 as amended: the batched matrix contains an origin as a top-level key
*iff* that origin has at least one eligible destination (`i + 1 < m`);
origins with zero eligible destinations (the last origin, and any origin
whose index is at least `m − 1`) are absent entirely, not present with an
empty inner mapping. The second half of the claim stands: destinations at
or before an origin's own index are simply absent from that origin's inner
mapping rather than present with an error. -/
theorem C3_every_origin_present (svc : Svc) (env : Env)
    (origins destinations : List Str) (mode : Str) (b : Nat)
    (hb : 1 ≤ b) (hkey : apiKeyPresent env = true)
    (hsvc : ∀ o dst mo, elemsOk o dst (svc o dst mo) = true)
    (hno : origins.Nodup) (hnd : destinations.Nodup)
    (hpo : PlainList origins) (hpd : PlainList destinations) (hpm : PlainStr mode) :
    ∃ res cache' calls,
      get_distance_matrix_batched svc env [] origins destinations mode b =
        (.ok res, cache', calls) ∧
      (∀ i, i < origins.length →
        (origins.getD i [] ∈ alKeys res ↔ i + 1 < destinations.length)) ∧
      (∀ i, i < origins.length → i + 1 < destinations.length →
        ∃ inner, alGet? (origins.getD i []) res = some inner ∧
          (∀ j, j ≤ i → j < destinations.length →
            alGet? (destinations.getD j []) inner = none) ∧
          (∀ j, i < j → j < destinations.length →
            destinations.getD j [] ∈ alKeys inner)) := by
  obtain ⟨res, cache', calls, hrun, hkeys, hinner⟩ :=
    get_distance_matrix_batched_spec svc env origins destinations mode b hb hkey hsvc
      hno hnd hpo hpd hpm
  refine ⟨res, cache', calls, hrun, ?_, ?_⟩
  · intro i hi
    rw [hkeys]
    constructor
    · rintro ⟨i', hi', him', he⟩
      have : i = i' := getD_inj hno hi hi' he
      omega
    · intro him
      exact ⟨i, hi, him, rfl⟩
  · intro i hi him
    obtain ⟨inner, hget, hin⟩ := hinner i hi him
    refine ⟨inner, hget, ?_, ?_⟩
    · intro j hji hjm
      apply alGet?_eq_none_of_not_mem
      intro hmem
      rcases (hin _).1 hmem with ⟨j', hij', hj'm, he⟩
      have : j = j' := getD_inj hnd hjm hj'm he
      omega
    · intro j hij hjm
      exact (hin _).2 ⟨j, hij, hjm, rfl⟩

theorem C3_every_origin_present_witness :
    ∃ res cache' calls,
      get_distance_matrix_batched svcOkConst envTest [] ["A".toList, "B".toList, "C".toList]
        ["A".toList, "B".toList, "C".toList] "driving".toList 2 =
        (.ok res, cache', calls) ∧
      (∀ i, i < (["A".toList, "B".toList, "C".toList] : List Str).length →
        ((["A".toList, "B".toList, "C".toList] : List Str).getD i [] ∈ alKeys res ↔
          i + 1 < (["A".toList, "B".toList, "C".toList] : List Str).length)) ∧
      (∀ i, i < (["A".toList, "B".toList, "C".toList] : List Str).length →
        i + 1 < (["A".toList, "B".toList, "C".toList] : List Str).length →
        ∃ inner, alGet? ((["A".toList, "B".toList, "C".toList] : List Str).getD i [])
            res = some inner ∧
          (∀ j, j ≤ i → j < (["A".toList, "B".toList, "C".toList] : List Str).length →
            alGet? ((["A".toList, "B".toList, "C".toList] : List Str).getD j []) inner =
              none) ∧
          (∀ j, i < j → j < (["A".toList, "B".toList, "C".toList] : List Str).length →
            (["A".toList, "B".toList, "C".toList] : List Str).getD j [] ∈ alKeys inner)) :=
  C3_every_origin_present svcOkConst envTest ["A".toList, "B".toList, "C".toList]
    ["A".toList, "B".toList, "C".toList] "driving".toList 2 (by decide) rfl
    svcOkConst_elemsOk
    (by decide) (by decide) (by decide) (by decide) (by decide)

/-- C5: Error isolation at the element level — if the service response
gives pair `(a, bIdx)` status `ZERO_RESULTS` and every other pair status
`OK` (with distance/duration texts present), `get_distance_matrix` returns
successfully (no exception for the non-OK element): the matrix holds
`{error: ZERO_RESULTS}` at that pair and a `{distance, duration}` pair
everywhere else. -/
theorem C5_error_isolation (svc : Svc) (env : Env) (cache : Cache)
    (origins destinations : List Str) (mode : Str) (a bIdx : Nat)
    (hmiss : alGet? (_matrix_cache_key origins destinations mode) cache = none)
    (hkey : apiKeyPresent env = true)
    (hno : origins.Nodup) (hnd : destinations.Nodup)
    (ha : a < origins.length) (hbI : bIdx < destinations.length)
    (helem : ∀ i, i < origins.length → ∀ j, j < destinations.length →
      ∃ e, elemAt (svc origins destinations mode) i j = some e ∧
        ((i = a ∧ j = bIdx) →
          jGet? "status".toList e = some (.s "ZERO_RESULTS".toList)) ∧
        (¬(i = a ∧ j = bIdx) →
          jGet? "status".toList e = some (.s "OK".toList) ∧
          ∃ dv tv, (jGet? "distance".toList e).bind (jGet? "text".toList) = some dv ∧
            (jGet? "duration".toList e).bind (jGet? "text".toList) = some tv)) :
    ∃ mat cache',
      get_distance_matrix svc env cache origins destinations mode = (.ok mat, cache', 1) ∧
      (∃ inner, alGet? (origins.getD a []) mat = some inner ∧
        alGet? (destinations.getD bIdx []) inner =
          some [("error".toList, J.s "ZERO_RESULTS".toList)]) ∧
      (∀ i, i < origins.length → ∀ j, j < destinations.length → ¬(i = a ∧ j = bIdx) →
        ∃ inner dv tv, alGet? (origins.getD i []) mat = some inner ∧
          alGet? (destinations.getD j []) inner =
            some [("distance".toList, dv), ("duration".toList, tv)]) := by
  have htrans : ∀ i, i < origins.length → ∀ j, j < destinations.length →
      ∃ f, elemTrans (svc origins destinations mode) i j = .ok f ∧
        (((i = a ∧ j = bIdx) → f = [("error".toList, J.s "ZERO_RESULTS".toList)]) ∧
         (¬(i = a ∧ j = bIdx) → ∃ dv tv,
           f = [("distance".toList, dv), ("duration".toList, tv)])) := by
    intro i hi j hj
    obtain ⟨e, he, hzero, hok⟩ := helem i hi j hj
    by_cases hab : i = a ∧ j = bIdx
    · refine ⟨[("error".toList, J.s "ZERO_RESULTS".toList)], ?_, fun _ => rfl,
        fun hc => absurd hab hc⟩
      rw [elemTrans, he]
      exact transformElement_not_ok (hzero hab) (by decide)
    · obtain ⟨hst, dv, tv, hdv, htv⟩ := hok hab
      refine ⟨[("distance".toList, dv), ("duration".toList, tv)], ?_,
        fun hc => absurd hc hab, fun _ => ⟨dv, tv, rfl⟩⟩
      rw [elemTrans, he]
      exact transformElement_is_ok hst hdv htv
  have hok : elemsOk origins destinations (svc origins destinations mode) = true := by
    rw [elemsOk]
    apply List.all_eq_true.2
    intro i hi
    apply List.all_eq_true.2
    intro j hj
    obtain ⟨f, hf, _⟩ := htrans i (by simpa using List.mem_range.1 hi) j
      (by simpa using List.mem_range.1 hj)
    rw [hf]
  obtain ⟨mat, hmat⟩ := transformResponse_isOk hok
  have hrun := get_distance_matrix_miss svc env cache origins destinations mode hmiss hkey
  rw [hmat] at hrun
  obtain ⟨hkeys, hidx⟩ := transformResponse_spec hmat hno hnd
  have hlookup : ∀ i, i < origins.length → ∀ j, j < destinations.length →
      ∃ inner f, alGet? (origins.getD i []) mat = some inner ∧
        elemTrans (svc origins destinations mode) i j = .ok f ∧
        alGet? (destinations.getD j []) inner = some f := by
    intro i hi j hj
    obtain ⟨inner, hget, _, hidx'⟩ := hidx i hi
    obtain ⟨f, hf, hget'⟩ := hidx' j hj
    refine ⟨inner, f, ?_, hf, ?_⟩
    · rw [List.getD_eq_getElem origins [] hi]
      rw [show origins.get ⟨i, hi⟩ = origins[i] from rfl] at hget
      exact hget
    · rw [List.getD_eq_getElem destinations [] hj]
      rw [show destinations.get ⟨j, hj⟩ = destinations[j] from rfl] at hget'
      exact hget'
  refine ⟨mat, _, hrun, ?_, ?_⟩
  · obtain ⟨inner, f, hget, hf, hget'⟩ := hlookup a ha bIdx hbI
    obtain ⟨f', hf', hcase, _⟩ := htrans a ha bIdx hbI
    rw [hf] at hf'
    have : f = f' := by injection hf'
    subst this
    exact ⟨inner, hget, by rw [hget', hcase ⟨rfl, rfl⟩]⟩
  · intro i hi j hj hne
    obtain ⟨inner, f, hget, hf, hget'⟩ := hlookup i hi j hj
    obtain ⟨f', hf', _, hcase⟩ := htrans i hi j hj
    rw [hf] at hf'
    have : f = f' := by injection hf'
    subst this
    obtain ⟨dv, tv, hftv⟩ := hcase hne
    exact ⟨inner, dv, tv, hget, by rw [hget', hftv]⟩

theorem C5_error_isolation_witness :
    ∃ mat cache',
      get_distance_matrix svcZeroAB envTest [] ["A".toList, "B".toList]
        ["C".toList, "D".toList] "driving".toList = (.ok mat, cache', 1) ∧
      (∃ inner, alGet? ((["A".toList, "B".toList] : List Str).getD 0 []) mat = some inner ∧
        alGet? ((["C".toList, "D".toList] : List Str).getD 1 []) inner =
          some [("error".toList, J.s "ZERO_RESULTS".toList)]) ∧
      (∀ i, i < (["A".toList, "B".toList] : List Str).length →
        ∀ j, j < (["C".toList, "D".toList] : List Str).length → ¬(i = 0 ∧ j = 1) →
        ∃ inner dv tv,
          alGet? ((["A".toList, "B".toList] : List Str).getD i []) mat = some inner ∧
          alGet? ((["C".toList, "D".toList] : List Str).getD j []) inner =
            some [("distance".toList, dv), ("duration".toList, tv)]) :=
  C5_error_isolation svcZeroAB envTest [] ["A".toList, "B".toList]
    ["C".toList, "D".toList] "driving".toList 0 1 rfl rfl (by decide) (by decide)
    (by decide) (by decide)
    (by
      intro i hi j hj
      have hi2 : i < 2 := hi
      have hj2 : j < 2 := hj
      interval_cases i <;> interval_cases j
      · exact ⟨elemOkJ, rfl, fun h => absurd h (by simp),
          fun _ => ⟨rfl, J.s "2 km".toList, J.s "2 min".toList, rfl, rfl⟩⟩
      · exact ⟨elemZeroJ, rfl, fun _ => rfl, fun h => absurd ⟨rfl, rfl⟩ h⟩
      · exact ⟨elemOkJ, rfl, fun h => absurd h (by simp),
          fun _ => ⟨rfl, J.s "2 km".toList, J.s "2 min".toList, rfl, rfl⟩⟩
      · exact ⟨elemOkJ, rfl, fun h => absurd h (by simp),
          fun _ => ⟨rfl, J.s "2 km".toList, J.s "2 min".toList, rfl, rfl⟩⟩)

/-- C9 (implicit): Input-string key identity — a successful
`google_maps_funcs.get_distance_matrix` call always keys its matrix by the
input origin strings in input order, with inner keys the input destination
strings, regardless of where the response came from; the transformation
reads the response only through `rows`, so the service-resolved
`origin_addresses`/`destination_addresses` cannot influence the keys; a
batched run's accumulator is therefore also keyed by original input
strings; `compute_distances.get_distance_matrix`, by contrast, keys its
matrix by the service-resolved `origin_addresses`. -/
theorem C9_input_string_key_identity :
    (∀ (svc : Svc) (env : Env) (cache : Cache) (origins destinations : List Str)
      (mode : Str) (mat : DistMatrix) (cache' : Cache) (calls : Nat),
      get_distance_matrix svc env cache origins destinations mode =
        (.ok mat, cache', calls) →
      origins.Nodup → destinations.Nodup →
      alKeys mat = origins ∧
      ∀ i, i < origins.length → ∃ inner,
        alGet? (origins.getD i []) mat = some inner ∧ alKeys inner = destinations) ∧
    (∀ (origins destinations : List Str) (resp resp' : J),
      jGet? "rows".toList resp = jGet? "rows".toList resp' →
      transformResponse origins destinations resp =
        transformResponse origins destinations resp') ∧
    (∀ (svc : Svc) (env : Env) (origins destinations : List Str) (mode : Str) (b : Nat)
      (res : DistMatrix) (cache' : Cache) (calls : Nat),
      1 ≤ b → apiKeyPresent env = true →
      (∀ o dst mo, elemsOk o dst (svc o dst mo) = true) →
      origins.Nodup → destinations.Nodup →
      PlainList origins → PlainList destinations → PlainStr mode →
      get_distance_matrix_batched svc env [] origins destinations mode b =
        (.ok res, cache', calls) →
      ∀ κ ∈ alKeys res, κ ∈ origins) ∧
    (∀ (svc : Svc) (env : Env) (origins destinations : List Str) (mode : Str)
      (mat : DistMatrix) (oaddrs daddrs : List Str),
      cd_get_distance_matrix svc env origins destinations mode = .ok mat →
      strList? (jGet? "origin_addresses".toList (svc origins destinations mode)) =
        .ok oaddrs →
      strList? (jGet? "destination_addresses".toList (svc origins destinations mode)) =
        .ok daddrs →
      oaddrs.Nodup → daddrs.Nodup →
      alKeys mat = oaddrs) := by
  refine ⟨?_, ?_, ?_, ?_⟩
  · intro svc env cache origins destinations mode mat cache' calls hrun hno hnd
    obtain ⟨resp, hresp⟩ := get_distance_matrix_ok_transform hrun
    obtain ⟨hkeys, hidx⟩ := transformResponse_spec hresp hno hnd
    refine ⟨hkeys, ?_⟩
    intro i hi
    obtain ⟨inner, hget, hikeys, _⟩ := hidx i hi
    refine ⟨inner, ?_, hikeys⟩
    rw [List.getD_eq_getElem origins [] hi]
    rw [show origins.get ⟨i, hi⟩ = origins[i] from rfl] at hget
    exact hget
  · exact fun origins destinations resp resp' h =>
      transformResponse_rows_congr origins destinations resp resp' h
  · intro svc env origins destinations mode b res cache' calls hb hkey hsvc hno hnd
      hpo hpd hpm hrun κ hκ
    obtain ⟨res0, cache0, calls0, hrun0, hkeys0, _⟩ :=
      get_distance_matrix_batched_spec svc env origins destinations mode b hb hkey hsvc
        hno hnd hpo hpd hpm
    rw [hrun] at hrun0
    have hres0 : res0 = res := by
      have := congrArg (fun t => t.1) hrun0
      simpa using this.symm
    subst hres0
    rcases (hkeys0 κ).1 hκ with ⟨i, hi, _, rfl⟩
    exact getD_mem hi
  · intro svc env origins destinations mode mat oaddrs daddrs hrun hoa hda hnoa hnda
    rw [cd_get_distance_matrix] at hrun
    by_cases hk : apiKeyPresent env = true
    · rw [if_pos hk] at hrun
      dsimp only at hrun
      rw [hoa, hda] at hrun
      have hmat : transformResponse oaddrs daddrs (svc origins destinations mode) =
          .ok mat := hrun
      exact (transformResponse_spec hmat hnoa hnda).1
    · rw [if_neg hk] at hrun
      exact absurd hrun (by simp)

theorem C9_input_string_key_identity_witness :
    (alKeys [("A".toList,
        [("B".toList, [("distance".toList, J.s "1 km".toList),
          ("duration".toList, J.s "1 min".toList)])])] = ["A".toList] ∧
      ∀ i, i < (["A".toList] : List Str).length → ∃ inner,
        alGet? ((["A".toList] : List Str).getD i [])
          [("A".toList,
            [("B".toList, [("distance".toList, J.s "1 km".toList),
              ("duration".toList, J.s "1 min".toList)])])] = some inner ∧
        alKeys inner = ["B".toList]) ∧
    (transformResponse ["A".toList] ["B".toList]
        (J.obj [("rows".toList, J.s "x".toList)]) =
      transformResponse ["A".toList] ["B".toList]
        (J.obj [("origin_addresses".toList, J.s "R".toList),
                ("rows".toList, J.s "x".toList)])) ∧
    (∀ κ ∈ alKeys [("A".toList,
        [("B".toList, [("distance".toList, J.s "1 km".toList),
          ("duration".toList, J.s "1 min".toList)])])],
      κ ∈ (["A".toList, "B".toList] : List Str)) ∧
    alKeys [("A".toList,
      [("B".toList, [("distance".toList, J.s "1 km".toList),
        ("duration".toList, J.s "1 min".toList)])])] = ["A".toList] := by
  refine ⟨?_, ?_, ?_, ?_⟩
  · exact C9_input_string_key_identity.1 svcOkConst envTest [] ["A".toList] ["B".toList]
      "driving".toList _
      (get_distance_matrix svcOkConst envTest [] ["A".toList] ["B".toList]
        "driving".toList).2.1
      (get_distance_matrix svcOkConst envTest [] ["A".toList] ["B".toList]
        "driving".toList).2.2 rfl (by decide) (by decide)
  · exact C9_input_string_key_identity.2.1 ["A".toList] ["B".toList] _ _ rfl
  · exact C9_input_string_key_identity.2.2.1 svcOkConst envTest ["A".toList, "B".toList]
      ["A".toList, "B".toList] "driving".toList 25 _
      (get_distance_matrix_batched svcOkConst envTest [] ["A".toList, "B".toList]
        ["A".toList, "B".toList] "driving".toList 25).2.1
      (get_distance_matrix_batched svcOkConst envTest [] ["A".toList, "B".toList]
        ["A".toList, "B".toList] "driving".toList 25).2.2
      (by decide) rfl svcOkConst_elemsOk (by decide) (by decide) (by decide) (by decide)
      (by decide) rfl
  · exact C9_input_string_key_identity.2.2.2 svcOkConst envTest ["A".toList] ["B".toList]
      "driving".toList _ ["A".toList] ["B".toList] rfl rfl rfl (by decide) (by decide)

/-- C10 (implicit): Total unpacking with None for errors and absences —
for every matrix dictionary, `unpack_distance_matrix_dict` returns two
frames whose row index is the dictionary's origin keys in insertion order
and whose columns are the sorted (by code point, duplicate-free) union of
all inner destination keys; a cell holds the origin's entry's `distance`
(resp. `duration`) field, and is `None` exactly when the entry
`matrix_dict[origin].get(destination, {})` lacks that field — so error
elements and triangular gaps yield `None` rather than raising. -/
theorem C10_total_unpacking (matrix_dict : DistMatrix) :
    ((unpack_distance_matrix_dict matrix_dict).1.index = alKeys matrix_dict ∧
     (unpack_distance_matrix_dict matrix_dict).2.index = alKeys matrix_dict) ∧
    ((unpack_distance_matrix_dict matrix_dict).2.columns =
       (unpack_distance_matrix_dict matrix_dict).1.columns ∧
     (∀ s, s ∈ (unpack_distance_matrix_dict matrix_dict).1.columns ↔
       ∃ p ∈ matrix_dict, s ∈ alKeys p.2) ∧
     (unpack_distance_matrix_dict matrix_dict).1.columns.Nodup ∧
     (unpack_distance_matrix_dict matrix_dict).1.columns.Pairwise
       fun a c => strLeB a c = true) ∧
    (∀ i, i < (alKeys matrix_dict).length →
     ∀ j, j < (unpack_distance_matrix_dict matrix_dict).1.columns.length →
      (((unpack_distance_matrix_dict matrix_dict).1.data.getD i []).getD j none =
        alGet? "distance".toList
          (alGetD ((unpack_distance_matrix_dict matrix_dict).1.columns.getD j [])
            (alGetD ((alKeys matrix_dict).getD i []) matrix_dict []) []) ∧
       ((unpack_distance_matrix_dict matrix_dict).2.data.getD i []).getD j none =
        alGet? "duration".toList
          (alGetD ((unpack_distance_matrix_dict matrix_dict).1.columns.getD j [])
            (alGetD ((alKeys matrix_dict).getD i []) matrix_dict []) []))) := by
  refine ⟨⟨rfl, rfl⟩, ⟨rfl, ?_, sortedDedup_nodup _, pairwise_sortedDedup _⟩, ?_⟩
  · intro s
    rw [show (unpack_distance_matrix_dict matrix_dict).1.columns =
      sortedDedup (matrix_dict.flatMap fun p => alKeys p.2) from rfl]
    rw [mem_sortedDedup, List.mem_flatMap]
  · intro i hi j hj
    have hcols : (unpack_distance_matrix_dict matrix_dict).1.columns =
        sortedDedup (matrix_dict.flatMap fun p => alKeys p.2) := rfl
    have hdata1 : (unpack_distance_matrix_dict matrix_dict).1.data =
        (alKeys matrix_dict).map fun origin =>
          (sortedDedup (matrix_dict.flatMap fun p => alKeys p.2)).map fun destination =>
            alGet? "distance".toList
              (alGetD destination (alGetD origin matrix_dict []) []) := rfl
    have hdata2 : (unpack_distance_matrix_dict matrix_dict).2.data =
        (alKeys matrix_dict).map fun origin =>
          (sortedDedup (matrix_dict.flatMap fun p => alKeys p.2)).map fun destination =>
            alGet? "duration".toList
              (alGetD destination (alGetD origin matrix_dict []) []) := rfl
    rw [hcols] at hj ⊢
    constructor
    · rw [hdata1, map_getD_of_lt hi _ []]
      rw [map_getD_of_lt hj _ []]
    · rw [hdata2, map_getD_of_lt hi _ []]
      rw [map_getD_of_lt hj _ []]

theorem C10_total_unpacking_witness :
    0 < (alKeys exampleMatrix).length ∧
    0 < (unpack_distance_matrix_dict exampleMatrix).1.columns.length ∧
    (((unpack_distance_matrix_dict exampleMatrix).1.index = alKeys exampleMatrix ∧
      (unpack_distance_matrix_dict exampleMatrix).2.index = alKeys exampleMatrix) ∧
     ((unpack_distance_matrix_dict exampleMatrix).2.columns =
        (unpack_distance_matrix_dict exampleMatrix).1.columns ∧
      (∀ s, s ∈ (unpack_distance_matrix_dict exampleMatrix).1.columns ↔
        ∃ p ∈ exampleMatrix, s ∈ alKeys p.2) ∧
      (unpack_distance_matrix_dict exampleMatrix).1.columns.Nodup ∧
      (unpack_distance_matrix_dict exampleMatrix).1.columns.Pairwise
        fun a c => strLeB a c = true) ∧
     (∀ i, i < (alKeys exampleMatrix).length →
      ∀ j, j < (unpack_distance_matrix_dict exampleMatrix).1.columns.length →
       (((unpack_distance_matrix_dict exampleMatrix).1.data.getD i []).getD j none =
         alGet? "distance".toList
           (alGetD ((unpack_distance_matrix_dict exampleMatrix).1.columns.getD j [])
             (alGetD ((alKeys exampleMatrix).getD i []) exampleMatrix []) []) ∧
        ((unpack_distance_matrix_dict exampleMatrix).2.data.getD i []).getD j none =
         alGet? "duration".toList
           (alGetD ((unpack_distance_matrix_dict exampleMatrix).1.columns.getD j [])
             (alGetD ((alKeys exampleMatrix).getD i []) exampleMatrix []) [])))) :=
  ⟨by decide, by decide, C10_total_unpacking exampleMatrix⟩
